import Mathlib

/-!
# Verification of the `agent-management` skill manager

A shallow embedding, in Lean 4, of the pure logic of the
`ArdentaCorp/agent-management` CLI:

* `internal/config/config.go` — identifier encoding (`GetSafeName`,
  `ParseSafeName`) and link-name extraction (`GetLinkName`);
* `internal/git/git.go` — GitHub URL normalization (`NormalizeURL`);
* `internal/skills/skills.go` — the JSON skill registry
  (`AddSkill`, `RemoveSkill`, `GetSkill`, `UpdateSkillVersion`,
  `GetAllSkills`);
* `internal/commands/sync.go` — the sync orchestrator
  (`scanForSkills`, `removeSkillLinkIfPresent`,
  `removeSkillsWithLinkName`, and the reconciliation core of
  `SyncSkills`).

Go strings are modelled as `List Char` (with `String` wrappers where
convenient); Go maps (the JSON registry file, the file system) are
modelled as association lists read through first-match lookup, which is
exactly the partial-function semantics of the originals.
-/

namespace AgentManagement

/-! ## String primitives (models of the `strings` package functions used) -/

/-- Model of `strings.TrimRight(s, "/")`: drop every trailing `'/'`. -/
def trimRightSlash (l : List Char) : List Char :=
  (l.reverse.dropWhile (fun c => c == '/')).reverse

/-- Model of `s[:strings.Index(s, c)]` (identity when `c` is absent):
everything strictly before the first occurrence of `c`. -/
def cutAt (c : Char) (l : List Char) : List Char :=
  l.takeWhile (fun a => a != c)

/-- Model of `strings.TrimSuffix(s, ".git")`. -/
def trimSuffixGit (l : List Char) : List Char :=
  if ('.' :: 'g' :: 'i' :: 't' :: []).reverse.isPrefixOf l.reverse then
    (l.reverse.drop 4).reverse
  else l

/-- First component of splitting at the first `'/'` (`[^/]*` head segment). -/
def segTake (l : List Char) : List Char := l.takeWhile (fun a => a != '/')

/-- Remainder of splitting at the first `'/'` (starts with `'/'` if nonempty). -/
def segDrop (l : List Char) : List Char := l.dropWhile (fun a => a != '/')

/-- Strip a literal leading word, returning the remainder on success. -/
def stripLead : List Char → List Char → Option (List Char)
  | [], l => some l
  | _ :: _, [] => none
  | p :: ps, c :: cs => if c = p then stripLead ps cs else none

/-! ## `internal/config/config.go` -/

namespace Config

/-- Model of `strings.ReplaceAll(s, "/", "__")`. -/
def replSlash : List Char → List Char
  | [] => []
  | c :: rest => if c = '/' then '_' :: '_' :: replSlash rest else c :: replSlash rest

/-- Model of `strings.ReplaceAll(s, "__", "/")` (left-to-right,
non-overlapping, exactly Go's semantics for this pattern). -/
def replUU : List Char → List Char
  | [] => []
  | [a] => [a]
  | a :: b :: rest =>
    if a = '_' ∧ b = '_' then '/' :: replUU rest
    else a :: replUU (b :: rest)

/-- Model of `strings.SplitN(s, ":", 2)`: `none` when `':'` is absent
(Go returns the 1-element slice), otherwise the parts around the first
`':'`. -/
def splitColonOnce : List Char → Option (List Char × List Char)
  | [] => none
  | c :: rest =>
    if c = ':' then some ([], rest)
    else (splitColonOnce rest).map (fun p => (c :: p.1, p.2))

/-- Model of `strings.SplitN(s, "__", 2)`: `none` when `"__"` is absent,
otherwise the parts around the first occurrence. -/
def splitUUOnce : List Char → Option (List Char × List Char)
  | [] => none
  | [_] => none
  | a :: b :: rest =>
    if a = '_' ∧ b = '_' then some ([], rest)
    else (splitUUOnce (b :: rest)).map (fun p => (a :: p.1, p.2))

/-- `config.Manager.GetSafeName` on character lists: `":"` → `"__"` after
the source prefix, `"/"` → `"__"` inside the locator. -/
def GetSafeNameL (id : List Char) : List Char :=
  match splitColonOnce id with
  | none => replSlash id
  | some (src, rest) => src ++ '_' :: '_' :: replSlash rest

/-- `config.Manager.ParseSafeName` on character lists. -/
def ParseSafeNameL (safe : List Char) : List Char :=
  match splitUUOnce safe with
  | none => safe
  | some (pre, post) => pre ++ ':' :: replUU post

/-- `config.Manager.GetLinkName` on character lists: the part after the
first `':'` (the whole id if there is none), then the last `'/'`-separated
segment. -/
def GetLinkNameL (id : List Char) : List Char :=
  let name := match splitColonOnce id with
    | none => id
    | some (_, rest) => rest
  (name.reverse.takeWhile (fun a => a != '/')).reverse

/-- `config.Manager.GetSafeName` (String wrapper). -/
def GetSafeName (id : String) : String := ⟨GetSafeNameL id.data⟩

/-- `config.Manager.ParseSafeName` (String wrapper). -/
def ParseSafeName (safe : String) : String := ⟨ParseSafeNameL safe.data⟩

/-- `config.Manager.GetLinkName` (String wrapper). -/
def GetLinkName (id : String) : String := ⟨GetLinkNameL id.data⟩

/-! ### Properties of the identifier encoding -/

/-- `l` contains `"__"` as a substring. -/
def hasUU : List Char → Bool
  | [] => false
  | [_] => false
  | a :: b :: rest => (a == '_' && b == '_') || hasUU (b :: rest)

/-- `l` contains `"_/"` as a substring. -/
def hasUS : List Char → Bool
  | [] => false
  | [_] => false
  | a :: b :: rest => (a == '_' && b == '/') || hasUS (b :: rest)

/-- `l` ends with `'_'`. -/
def endsU : List Char → Bool
  | [] => false
  | [a] => a == '_'
  | _ :: b :: rest => endsU (b :: rest)

end Config

/-! ## `internal/skills/skills.go` — the skill registry -/

namespace Skills

/-- `skills.storedSkill` — the JSON value stored under the identifier key
(the empty string plays the role of an omitted optional field). -/
structure StoredSkill where
  commitID : String
  type : String
  path : String
deriving DecidableEq, Repr

/-- `skills.Skill` — a stored record together with its identifier. -/
structure Skill where
  id : String
  commitID : String
  type : String
  path : String
deriving DecidableEq, Repr

/-- The persisted registry document (`skills.json`): a JSON object
mapping identifier to record, modelled as an association list read by
first-match lookup. -/
abbrev RegMap := List (String × StoredSkill)

/-- Go map read `skills[id]`. -/
def lookupSkill : RegMap → String → Option StoredSkill
  | [], _ => none
  | (k, v) :: rest, id => if k = id then some v else lookupSkill rest id

/-- Go map write `skills[id] = v`: replace the binding if the key is
present, insert it otherwise. -/
def setSkill : RegMap → String → StoredSkill → RegMap
  | [], id, v => [(id, v)]
  | (k, w) :: rest, id, v =>
    if k = id then (id, v) :: rest else (k, w) :: setSkill rest id v

/-- `Registry.AddSkill`. -/
def AddSkill (skills : RegMap) (id skillType commitID skillPath : String) : RegMap :=
  setSkill skills id ⟨commitID, skillType, skillPath⟩

/-- `Registry.RemoveSkill`: `delete(skills, id)`. -/
def RemoveSkill (skills : RegMap) (id : String) : RegMap :=
  skills.filter (fun kv => kv.1 != id)

/-- `Registry.GetSkill`: `nil` when absent. -/
def GetSkill (skills : RegMap) (id : String) : Option Skill :=
  (lookupSkill skills id).map (fun s => ⟨id, s.commitID, s.type, s.path⟩)

/-- `Registry.UpdateSkillVersion`: mutate `commitId` in place when the
key is present, otherwise do nothing.  The boolean records whether the
registry file was rewritten (`save` runs only in the `ok` branch). -/
def UpdateSkillVersion (skills : RegMap) (id newCommitID : String) : RegMap × Bool :=
  match lookupSkill skills id with
  | some s => (setSkill skills id ⟨newCommitID, s.type, s.path⟩, true)
  | none => (skills, false)

/-- Insertion into a list sorted by `Skill.id`. -/
def insertByID (s : Skill) : List Skill → List Skill
  | [] => [s]
  | t :: rest => if s.id < t.id then s :: t :: rest else t :: insertByID s rest

/-- Sorting by `Skill.id` ascending (`sort.Slice` with `ID < ID`; on the
duplicate-free key set of a Go map every correct sort returns the same
list, so insertion sort is extensionally the source's sort). -/
def sortByID : List Skill → List Skill
  | [] => []
  | s :: rest => insertByID s (sortByID rest)

/-- `Registry.GetAllSkills`: all entries, sorted by identifier. -/
def GetAllSkills (skills : RegMap) : List Skill :=
  sortByID (skills.map (fun kv => ⟨kv.1, kv.2.commitID, kv.2.type, kv.2.path⟩))

end Skills

/-! ## `internal/git/git.go` — `NormalizeURL` -/

namespace Git

/-- The parsed components of a GitHub URL (`git.URLInfo`). -/
structure URLInfo where
  URL : String
  Branch : String
  Path : String
deriving DecidableEq, Repr

/-- `git.URLInfo` on character lists. -/
structure URLInfoL where
  url : List Char
  branch : List Char
  path : List Char
deriving DecidableEq, Repr

/-- The literal `https://github.com/` that both regexes require. -/
def ghLead : List Char := "https://github.com/".data

/-- The part `^https://github\.com/([^/]+)/([^/]+)` shared by both regex
shapes: on success returns `(user, repo, remainder)` where `user` and
`repo` are the nonempty slash-free segments and `remainder` is what
follows `repo` (empty, or starting with `'/'`).  Because `[^/]+` cannot
cross a `'/'`, this deterministic split matches exactly the strings the
anchored regexes accept. -/
def matchRepo (l : List Char) : Option (List Char × List Char × List Char) :=
  match stripLead ghLead l with
  | none => none
  | some t =>
    let user := segTake t
    if user = [] then none
    else match segDrop t with
      | '/' :: t2 =>
        let repo := segTake t2
        if repo = [] then none
        else some (user, repo, segDrop t2)
      | _ => none

/-- Regex `^(https://github\.com/[^/]+/[^/]+)/tree/([^/]+)/(.+)$` — Go's
`.` does not match a newline, hence the `'\n'` check on the path part. -/
def matchTreePath (l : List Char) :
    Option (List Char × List Char × List Char × List Char) :=
  match matchRepo l with
  | none => none
  | some (user, repo, rem) =>
    match rem with
    | '/' :: rem1 =>
      if segTake rem1 = "tree".data then
        match segDrop rem1 with
        | '/' :: rem2 =>
          let branch := segTake rem2
          if branch = [] then none
          else match segDrop rem2 with
            | '/' :: path =>
              if path ≠ [] ∧ path.all (fun c => c != '\n') then
                some (user, repo, branch, path)
              else none
            | _ => none
        | _ => none
      else none
    | _ => none

/-- Regex `^(https://github\.com/[^/]+/[^/]+)/tree/([^/]+)$`. -/
def matchTreeRoot (l : List Char) : Option (List Char × List Char × List Char) :=
  match matchRepo l with
  | none => none
  | some (user, repo, rem) =>
    match rem with
    | '/' :: rem1 =>
      if segTake rem1 = "tree".data then
        match segDrop rem1 with
        | '/' :: rem2 =>
          let branch := segTake rem2
          if branch = [] then none
          else if segDrop rem2 = [] then some (user, repo, branch) else none
        | _ => none
      else none
    | _ => none

/-- `git.Manager.NormalizeURL` on character lists: trim trailing `'/'`,
cut at the first `'?'` and `'#'`, trim one `.git` suffix, then try the
two `tree` regex shapes before falling back to the plain-repo case. -/
def NormalizeURLL (inputURL : List Char) : URLInfoL :=
  let url0 := trimRightSlash inputURL
  let url1 := cutAt '?' url0
  let url2 := cutAt '#' url1
  let url := trimSuffixGit url2
  match matchTreePath url with
  | some (user, repo, branch, path) =>
    ⟨ghLead ++ user ++ '/' :: repo ++ ".git".data, branch, trimRightSlash path⟩
  | none =>
    match matchTreeRoot url with
    | some (user, repo, branch) =>
      ⟨ghLead ++ user ++ '/' :: repo ++ ".git".data, branch, []⟩
    | none => ⟨url ++ ".git".data, [], []⟩

/-- `git.Manager.NormalizeURL` (String wrapper). -/
def NormalizeURL (inputURL : String) : URLInfo :=
  let r := NormalizeURLL inputURL.data
  ⟨⟨r.url⟩, ⟨r.branch⟩, ⟨r.path⟩⟩

end Git

/-! ## `internal/commands/sync.go` — the sync orchestrator

The orchestrator's effects live in three stores: the registry document,
the skill directories under the local repository root, and the symlinks
inside the detected projects' skill directories.  The directory map and
link set are modelled extensionally (path ↦ content, (project, link
name) pairs); the external `git` calls (clone/pull,
`GetLocalPathCommitID`) are deterministic while the upstream clone is
unchanged, so their answers travel with the scanned skill list. -/

namespace Commands

/-- A node of a scanned directory tree, as `os.ReadDir`/`os.Stat`
observe it: a plain file, or a directory with its children. -/
inductive FSNode where
  | file (name : String)
  | dir (name : String) (children : List FSNode)

/-- The entry name of a node. -/
def nodeName : FSNode → String
  | .file n => n
  | .dir n _ => n

/-- `strings.HasPrefix(name, ".")`. -/
def startsWithDot (s : String) : Bool :=
  match s.data with
  | '.' :: _ => true
  | _ => false

/-- `scanForSkills`: among the direct children of `root`, keep the
directories whose name is not dot-prefixed and that contain an entry
named `SKILL.md` (`os.Stat` succeeds on any entry of that name), and
return their joined paths.  (`os.ReadDir` yields the children sorted by
name; the properties proved here do not depend on the order, so the
given entry order is used.) -/
def scanForSkills (root : String) (entries : List FSNode) : List String :=
  entries.filterMap (fun e =>
    match e with
    | .file _ => none
    | .dir name children =>
      if startsWithDot name then none
      else if children.any (fun c => nodeName c == "SKILL.md") then
        some (root ++ "/" ++ name)
      else none)

/-- One skill directory found by `scanForSkills` in the pulled registry
clone, with what the git queries answer for it: `name` is
`filepath.Base(skillDir)` (a directory entry name, hence without `'/'`),
`commitID` is what `GetLocalPathCommitID` returns for its path, and
`content` stands for the file tree that `copyDir` copies. -/
structure UpSkill where
  name : String
  commitID : String
  content : String
deriving DecidableEq, Repr

/-- The state `SyncSkills` acts on: the registry document, the skill
directories under the repository root (safe name ↦ copied content), and
the live links in the detected projects (project index, link name). -/
structure SyncState where
  reg : Skills.RegMap
  dirs : List (String × String)
  links : List (Nat × String)
deriving DecidableEq, Repr

/-- The counters `SyncSkills` reports. -/
structure SyncCounts where
  added : Nat
  updated : Nat
  unchanged : Nat
  replaced : Nat
  replacedLinks : Nat
  removed : Nat
  linkCleanup : Nat
deriving DecidableEq, Repr

/-- `os.RemoveAll` of a repository skill directory. -/
def removeDir (dirs : List (String × String)) (d : String) : List (String × String) :=
  dirs.filter (fun kv => kv.1 != d)

/-- First-match lookup in the directory map. -/
def lookupDir : List (String × String) → String → Option String
  | [], _ => none
  | (k, v) :: rest, d => if k = d then some v else lookupDir rest d

/-- `os.Lstat` on a link path: is the entry present? -/
def linkPresent (links : List (Nat × String)) (p : Nat) (ln : String) : Bool :=
  links.any (fun pl => pl.1 == p && pl.2 == ln)

/-- `os.Remove` of a link path. -/
def removeLink (links : List (Nat × String)) (p : Nat) (ln : String) :
    List (Nat × String) :=
  links.filter (fun pl => !(pl.1 == p && pl.2 == ln))

/-- `removeSkillLinkIfPresent`: remove the skill's link from one detected
project, reporting whether an entry was removed. -/
def removeSkillLinkIfPresent (links : List (Nat × String)) (skillID : String)
    (p : Nat) : (List (Nat × String)) × Bool :=
  if linkPresent links p (Config.GetLinkName skillID) then
    (removeLink links p (Config.GetLinkName skillID), true)
  else (links, false)

/-- One step of the `for _, p := range detectedProjects` loop around
`removeSkillLinkIfPresent`, counting successful removals. -/
def removeLinksStep (skillID : String) (acc : (List (Nat × String)) × Nat)
    (p : Nat) : (List (Nat × String)) × Nat :=
  let r := removeSkillLinkIfPresent acc.1 skillID p
  (r.1, if r.2 then acc.2 + 1 else acc.2)

/-- The `for _, p := range detectedProjects` loop around
`removeSkillLinkIfPresent`. -/
def removeLinksEverywhere (links : List (Nat × String)) (skillID : String)
    (projects : List Nat) : (List (Nat × String)) × Nat :=
  projects.foldl (removeLinksStep skillID) (links, 0)

/-- One iteration of the `removeSkillsWithLinkName` loop: skip the kept
id and the skills with a different link name; otherwise remove the
skill's repository directory, its links in every detected project, and
its registry record. -/
def removeOneDup (projects : List Nat) (linkName keepID : String)
    (acc : SyncState × Nat × Nat) (sk : Skills.Skill) : SyncState × Nat × Nat :=
  if sk.id == keepID then acc
  else if Config.GetLinkName sk.id != linkName then acc
  else
    let st := acc.1
    let dirs := removeDir st.dirs (Config.GetSafeName sk.id)
    let r := removeLinksEverywhere st.links sk.id projects
    let reg := Skills.RemoveSkill st.reg sk.id
    (⟨reg, dirs, r.1⟩, acc.2.1 + 1, acc.2.2 + r.2)

/-- `removeSkillsWithLinkName`: fold the loop over the
`registry.GetAllSkills()` snapshot; returns the new state together with
`(removedSources, removedLinks)`. -/
def removeSkillsWithLinkName (st : SyncState) (linkName keepID : String)
    (projects : List Nat) : SyncState × Nat × Nat :=
  (Skills.GetAllSkills st.reg).foldl (removeOneDup projects linkName keepID) (st, 0, 0)

/-- One iteration of the main `SyncSkills` loop for a found skill
directory: dedup by link name, read the existing record, replace the
repository directory by a fresh copy, upsert the registry record with
the fresh commit id, and update the counters. -/
def syncStep (projects : List Nat) (acc : SyncState × SyncCounts) (u : UpSkill) :
    SyncState × SyncCounts :=
  let id := "registry:" ++ u.name
  let r := removeSkillsWithLinkName acc.1 u.name id projects
  let st := r.1
  let existing := Skills.GetSkill st.reg id
  let dirs := removeDir st.dirs (Config.GetSafeName id) ++
    [(Config.GetSafeName id, u.content)]
  let reg := Skills.AddSkill st.reg id "registry" u.commitID ""
  let c0 := acc.2
  let c1 := { c0 with replaced := c0.replaced + r.2.1,
                      replacedLinks := c0.replacedLinks + r.2.2 }
  let c2 :=
    match existing with
    | none => { c1 with added := c1.added + 1 }
    | some e =>
      if e.commitID != u.commitID then { c1 with updated := c1.updated + 1 }
      else { c1 with unchanged := c1.unchanged + 1 }
  (⟨reg, dirs, st.links⟩, c2)

/-- One iteration of the removal phase: a `registry`-typed record no
longer found upstream loses its repository directory, its project links
and its registry record. -/
def removeGoneStep (foundIds : List String) (projects : List Nat)
    (acc : SyncState × SyncCounts) (sk : Skills.Skill) : SyncState × SyncCounts :=
  if sk.type == "registry" && !(foundIds.contains sk.id) then
    let st := acc.1
    let dirs := removeDir st.dirs (Config.GetSafeName sk.id)
    let r := removeLinksEverywhere st.links sk.id projects
    let reg := Skills.RemoveSkill st.reg sk.id
    (⟨reg, dirs, r.1⟩,
      { acc.2 with removed := acc.2.removed + 1,
                   linkCleanup := acc.2.linkCleanup + r.2 })
  else acc

/-- The reconciliation core of `SyncSkills`, after the registry clone is
pulled and scanned: `upstream` is the scanned skill list (empty ⇒ early
return before any reconciliation), `projects` indexes the detected
projects.  Returns the final state with the reported counters. -/
def SyncSkills (upstream : List UpSkill) (projects : List Nat) (st : SyncState) :
    SyncState × SyncCounts :=
  if upstream.isEmpty then (st, ⟨0, 0, 0, 0, 0, 0, 0⟩)
  else
    let r1 := upstream.foldl (syncStep projects) (st, ⟨0, 0, 0, 0, 0, 0, 0⟩)
    let foundIds := upstream.map (fun u => "registry:" ++ u.name)
    (Skills.GetAllSkills r1.1.reg).foldl (removeGoneStep foundIds projects) r1

end Commands

/-! ## Theorems -/

/-- Two strings with equal character data are equal. -/
theorem string_ext (a b : String) (h : a.data = b.data) : a = b :=
  congrArg String.mk h

namespace Config

theorem splitColonOnce_append (src rest : List Char) (h : ':' ∉ src) :
    splitColonOnce (src ++ ':' :: rest) = some (src, rest) := by
  induction src with
  | nil => simp [splitColonOnce]
  | cons c cs ih =>
    have hc : c ≠ ':' := fun hc => h (hc ▸ List.mem_cons_self c cs)
    have hcs : ':' ∉ cs := fun hm => h (List.mem_cons_of_mem c hm)
    simp [splitColonOnce, hc, ih hcs]

theorem splitUUOnce_append (src tail : List Char)
    (h1 : hasUU src = false) (h2 : endsU src = false) :
    splitUUOnce (src ++ '_' :: '_' :: tail) = some (src, tail) := by
  induction src with
  | nil => simp [splitUUOnce]
  | cons a cs ih =>
    cases cs with
    | nil =>
      have ha : a ≠ '_' := by simpa [endsU] using h2
      simp [splitUUOnce, ha]
    | cons b cs' =>
      have hab : ¬(a = '_' ∧ b = '_') := by
        intro hp
        obtain ⟨ha, hb⟩ := hp
        simp [hasUU, ha, hb] at h1
      have h1' : hasUU (b :: cs') = false := by
        have := h1
        simp only [hasUU, Bool.or_eq_false_iff] at this
        exact this.2
      have h2' : endsU (b :: cs') = false := by simpa [endsU] using h2
      have hrec := ih h1' h2'
      simp only [List.cons_append] at hrec ⊢
      simp [splitUUOnce, hab, hrec]

theorem replSlash_cons_ne (b : Char) (l : List Char) (hb : b ≠ '/') :
    replSlash (b :: l) = b :: replSlash l := by
  simp [replSlash, hb]

theorem replSlash_cons_slash (l : List Char) :
    replSlash ('/' :: l) = '_' :: '_' :: replSlash l := by
  simp [replSlash]

theorem replUU_cons_uu (l : List Char) :
    replUU ('_' :: '_' :: l) = '/' :: replUU l := by
  simp [replUU]

theorem replUU_cons₂ (a b : Char) (l : List Char) (h : ¬(a = '_' ∧ b = '_')) :
    replUU (a :: b :: l) = a :: replUU (b :: l) := by
  simp only [replUU, if_neg h]

theorem replUU_replSlash (loc : List Char)
    (h1 : hasUU loc = false) (h2 : hasUS loc = false) :
    replUU (replSlash loc) = loc := by
  induction loc with
  | nil => simp [replSlash, replUU]
  | cons a rest ih =>
    by_cases ha : a = '/'
    · subst ha
      rw [replSlash_cons_slash, replUU_cons_uu]
      cases rest with
      | nil => simp [replSlash, replUU]
      | cons b rest' =>
        have h1' : hasUU (b :: rest') = false := by
          simp only [hasUU, Bool.or_eq_false_iff] at h1
          exact h1.2
        have h2' : hasUS (b :: rest') = false := by
          simp only [hasUS, Bool.or_eq_false_iff] at h2
          exact h2.2
        rw [ih h1' h2']
    · rw [replSlash_cons_ne a rest ha]
      cases rest with
      | nil => simp [replSlash, replUU]
      | cons b rest' =>
        have h1' : hasUU (b :: rest') = false := by
          simp only [hasUU, Bool.or_eq_false_iff] at h1
          exact h1.2
        have h2' : hasUS (b :: rest') = false := by
          simp only [hasUS, Bool.or_eq_false_iff] at h2
          exact h2.2
        have hcond : ¬(a = '_' ∧ b = '_') := by
          intro hp
          obtain ⟨hA, hB⟩ := hp
          simp [hasUU, hA, hB] at h1
        have hcond2 : ¬(a = '_' ∧ b = '/') := by
          intro hp
          obtain ⟨hA, hB⟩ := hp
          simp [hasUS, hA, hB] at h2
        by_cases hb : b = '/'
        · subst hb
          have hA : a ≠ '_' := fun hA => hcond2 ⟨hA, rfl⟩
          have ihh := ih h1' h2'
          rw [replSlash_cons_slash, replUU_cons_uu] at ihh
          rw [replSlash_cons_slash, replUU_cons₂ a '_' _ (fun h => hA h.1),
            replUU_cons_uu, ihh]
        · rw [replSlash_cons_ne b rest' hb, replUU_cons₂ a b _ hcond,
            ← replSlash_cons_ne b rest' hb, ih h1' h2']

/-- The encode/decode round trip on character lists. -/
theorem parse_getSafe_roundtripL (src loc : List Char)
    (hc : ':' ∉ src) (hu : hasUU src = false) (he : endsU src = false)
    (hlu : hasUU loc = false) (hls : hasUS loc = false) :
    ParseSafeNameL (GetSafeNameL (src ++ ':' :: loc)) = src ++ ':' :: loc := by
  have e1 : GetSafeNameL (src ++ ':' :: loc) = src ++ '_' :: '_' :: replSlash loc := by
    unfold GetSafeNameL
    rw [splitColonOnce_append src loc hc]
  have e2 : ParseSafeNameL (src ++ '_' :: '_' :: replSlash loc) =
      src ++ ':' :: replUU (replSlash loc) := by
    unfold ParseSafeNameL
    rw [splitUUOnce_append src (replSlash loc) hu he]
  rw [e1, e2, replUU_replSlash loc hlu hls]

theorem string_data_append (s t : String) : (s ++ t).data = s.data ++ t.data := rfl

end Config

namespace Git

/-! ### Idempotence of `NormalizeURL` -/

theorem stripLead_some (p : List Char) :
    ∀ l t, stripLead p l = some t → l = p ++ t := by
  induction p with
  | nil =>
    intro l t h
    simp [stripLead] at h
    simp [h]
  | cons a ps ih =>
    intro l t h
    cases l with
    | nil => simp [stripLead] at h
    | cons c cs =>
      by_cases hc : c = a
      · subst hc
        simp only [stripLead, if_pos rfl] at h
        simp [ih cs t h]
      · simp [stripLead, hc] at h

theorem stripLead_append (p l : List Char) : stripLead p (p ++ l) = some l := by
  induction p with
  | nil => simp [stripLead]
  | cons a ps ih => simp [stripLead, ih]

theorem mem_segTake {c : Char} {l : List Char} (h : c ∈ segTake l) : c ≠ '/' := by
  have := List.mem_takeWhile_imp h
  simpa using this

theorem segTake_append (u rest : List Char) (huS : ∀ c ∈ u, c ≠ '/') :
    segTake (u ++ '/' :: rest) = u := by
  induction u with
  | nil => simp [segTake]
  | cons a cs ih =>
    have ha : (a != '/') = true := by
      simpa using huS a (List.mem_cons_self a cs)
    have ihh := ih (fun c hc => huS c (List.mem_cons_of_mem a hc))
    simp only [segTake] at ihh ⊢
    simp [List.takeWhile_cons, ha, ihh]

theorem segDrop_append (u rest : List Char) (huS : ∀ c ∈ u, c ≠ '/') :
    segDrop (u ++ '/' :: rest) = '/' :: rest := by
  induction u with
  | nil => simp [segDrop]
  | cons a cs ih =>
    have ha : (a != '/') = true := by
      simpa using huS a (List.mem_cons_self a cs)
    have ihh := ih (fun c hc => huS c (List.mem_cons_of_mem a hc))
    simp only [segDrop] at ihh ⊢
    simp [List.dropWhile_cons, ha, ihh]

theorem segTake_of_all (u : List Char) (huS : ∀ c ∈ u, c ≠ '/') : segTake u = u := by
  induction u with
  | nil => rfl
  | cons a cs ih =>
    have ha : (a != '/') = true := by
      simpa using huS a (List.mem_cons_self a cs)
    have ihh := ih (fun c hc => huS c (List.mem_cons_of_mem a hc))
    simp only [segTake] at ihh ⊢
    simp [List.takeWhile_cons, ha, ihh]

theorem segDrop_of_all (u : List Char) (huS : ∀ c ∈ u, c ≠ '/') : segDrop u = [] := by
  induction u with
  | nil => rfl
  | cons a cs ih =>
    have ha : (a != '/') = true := by
      simpa using huS a (List.mem_cons_self a cs)
    have ihh := ih (fun c hc => huS c (List.mem_cons_of_mem a hc))
    simp only [segDrop] at ihh ⊢
    simp [List.dropWhile_cons, ha, ihh]

theorem matchRepo_some {l u r rem : List Char}
    (h : matchRepo l = some (u, r, rem)) :
    l = ghLead ++ u ++ '/' :: r ++ rem ∧ u ≠ [] ∧ r ≠ [] ∧
      (∀ c ∈ u, c ≠ '/') ∧ (∀ c ∈ r, c ≠ '/') := by
  unfold matchRepo at h
  split at h
  · cases h
  · rename_i t hs
    simp only at h
    split at h
    · cases h
    · rename_i hu0
      split at h
      · rename_i t2 hd
        split at h
        · cases h
        · rename_i hr0
          simp only [Option.some.injEq, Prod.mk.injEq] at h
          obtain ⟨h1, h2, h3⟩ := h
          subst h1
          subst h2
          subst h3
          have hl := stripLead_some ghLead l t hs
          have ht : segTake t ++ segDrop t = t :=
            List.takeWhile_append_dropWhile (fun a => a != '/') t
          have ht2 : segTake t2 ++ segDrop t2 = t2 :=
            List.takeWhile_append_dropWhile (fun a => a != '/') t2
          refine ⟨?_, hu0, hr0, fun c hc => mem_segTake hc, fun c hc => mem_segTake hc⟩
          have ht' : t = segTake t ++ '/' :: (segTake t2 ++ segDrop t2) := by
            conv_lhs => rw [← ht, hd, ← ht2]
          conv_lhs => rw [hl, ht']
          simp
      · cases h

theorem matchTreePath_some {l u r b p : List Char}
    (h : matchTreePath l = some (u, r, b, p)) :
    ∃ rem, matchRepo l = some (u, r, rem) := by
  unfold matchTreePath at h
  split at h
  · cases h
  · rename_i u' r' rem hm
    refine ⟨rem, ?_⟩
    rw [hm]
    split at h
    · rename_i rem1
      split at h
      · split at h
        · rename_i rem2
          simp only at h
          split at h
          · cases h
          · split at h
            · rename_i path
              split at h
              · simp only [Option.some.injEq, Prod.mk.injEq] at h
                simp [h.1, h.2.1]
              · cases h
            · cases h
        · cases h
      · cases h
    · cases h

theorem matchTreeRoot_some {l u r b : List Char}
    (h : matchTreeRoot l = some (u, r, b)) :
    ∃ rem, matchRepo l = some (u, r, rem) := by
  unfold matchTreeRoot at h
  split at h
  · cases h
  · rename_i u' r' rem hm
    refine ⟨rem, ?_⟩
    rw [hm]
    split at h
    · rename_i rem1
      split at h
      · split at h
        · rename_i rem2
          simp only at h
          split at h
          · cases h
          · split at h
            · simp only [Option.some.injEq, Prod.mk.injEq] at h
              simp [h.1, h.2.1]
            · cases h
        · cases h
      · cases h
    · cases h

theorem cutAt_of_not_mem (c : Char) (l : List Char) (h : c ∉ l) : cutAt c l = l := by
  induction l with
  | nil => rfl
  | cons a rest ih =>
    have ha : (a != c) = true := by
      simp only [bne_iff_ne, ne_eq]
      intro e
      exact h (e ▸ List.mem_cons_self a rest)
    have ihh := ih (fun hm => h (List.mem_cons_of_mem a hm))
    simp only [cutAt] at ihh ⊢
    simp [List.takeWhile_cons, ha, ihh]

theorem not_mem_cutAt (c : Char) (l : List Char) : c ∉ cutAt c l := by
  intro h
  have := List.mem_takeWhile_imp h
  simp at this

theorem cutAt_subset (c : Char) (l : List Char) : cutAt c l ⊆ l := by
  intro a ha
  induction l with
  | nil => cases ha
  | cons x rest ih =>
    simp only [cutAt, List.takeWhile_cons] at ha
    by_cases hx : (x != c) = true
    · rw [if_pos hx] at ha
      rcases List.mem_cons.mp ha with h | h
      · exact h ▸ List.mem_cons_self x rest
      · exact List.mem_cons_of_mem x (ih h)
    · rw [if_neg hx] at ha
      cases ha

theorem trimSuffixGit_subset (l : List Char) : trimSuffixGit l ⊆ l := by
  intro a ha
  unfold trimSuffixGit at ha
  split at ha
  · have h1 : a ∈ l.reverse.drop 4 := List.mem_reverse.mp ha
    exact List.mem_reverse.mp (List.drop_subset 4 l.reverse h1)
  · exact ha

theorem trimRightSlash_append_git (l : List Char) :
    trimRightSlash (l ++ ".git".data) = l ++ ".git".data := by
  unfold trimRightSlash
  have hrev : (l ++ ".git".data).reverse = 't' :: 'i' :: 'g' :: '.' :: l.reverse := by
    simp [show (".git".data : List Char) = ['.', 'g', 'i', 't'] from rfl]
  rw [hrev]
  rw [List.dropWhile_cons_of_neg (by decide)]
  rw [← hrev, List.reverse_reverse]

theorem trimSuffixGit_append (l : List Char) :
    trimSuffixGit (l ++ ".git".data) = l := by
  unfold trimSuffixGit
  have hrev : (l ++ ".git".data).reverse = 't' :: 'i' :: 'g' :: '.' :: l.reverse := by
    simp [show (".git".data : List Char) = ['.', 'g', 'i', 't'] from rfl]
  rw [hrev]
  rw [if_pos (by simp [List.isPrefixOf])]
  simp

/-- Renormalizing a URL of the exact shape produced by the two `tree`
match cases gives the same URL with empty branch and path. -/
theorem normalize_repo_url (u r : List Char) (hu : u ≠ []) (hr : r ≠ [])
    (huS : ∀ c ∈ u, c ≠ '/') (hrS : ∀ c ∈ r, c ≠ '/')
    (huq : '?' ∉ u) (huh : '#' ∉ u) (hrq : '?' ∉ r) (hrh : '#' ∉ r) :
    NormalizeURLL (ghLead ++ u ++ '/' :: r ++ ".git".data) =
      ⟨ghLead ++ u ++ '/' :: r ++ ".git".data, [], []⟩ := by
  have hassoc : ghLead ++ u ++ '/' :: r ++ ".git".data =
      (ghLead ++ u ++ '/' :: r) ++ ".git".data := by simp
  have hnq : '?' ∉ ghLead ++ u ++ '/' :: r ++ ".git".data := by
    intro hmem
    simp only [List.mem_append, List.mem_cons] at hmem
    rcases hmem with ((h | h) | h) | h
    · exact absurd h (by decide)
    · exact huq h
    · rcases h with h | h
      · exact absurd h (by decide)
      · exact hrq h
    · exact absurd h (by decide)
  have hnh : '#' ∉ ghLead ++ u ++ '/' :: r ++ ".git".data := by
    intro hmem
    simp only [List.mem_append, List.mem_cons] at hmem
    rcases hmem with ((h | h) | h) | h
    · exact absurd h (by decide)
    · exact huh h
    · rcases h with h | h
      · exact absurd h (by decide)
      · exact hrh h
    · exact absurd h (by decide)
  have hmr : matchRepo (ghLead ++ u ++ '/' :: r) = some (u, r, []) := by
    unfold matchRepo
    have e0 : ghLead ++ u ++ '/' :: r = ghLead ++ (u ++ '/' :: r) := by simp
    rw [e0, stripLead_append]
    simp only
    rw [segTake_append u r huS, segDrop_append u r huS]
    rw [if_neg hu]
    simp only
    rw [segTake_of_all r hrS, segDrop_of_all r hrS]
    rw [if_neg hr]
  have htp : matchTreePath (ghLead ++ u ++ '/' :: r) = none := by
    unfold matchTreePath
    rw [hmr]
  have htr : matchTreeRoot (ghLead ++ u ++ '/' :: r) = none := by
    unfold matchTreeRoot
    rw [hmr]
  simp only [NormalizeURLL]
  rw [hassoc, trimRightSlash_append_git]
  rw [cutAt_of_not_mem '?' ((ghLead ++ u ++ '/' :: r) ++ ".git".data) (hassoc ▸ hnq)]
  rw [cutAt_of_not_mem '#' ((ghLead ++ u ++ '/' :: r) ++ ".git".data) (hassoc ▸ hnh)]
  rw [trimSuffixGit_append, htp, htr]

/-- Renormalizing a URL produced by the plain fallback case gives the same
URL with empty branch and path. -/
theorem normalize_plain (s : List Char) (hq : '?' ∉ s) (hh : '#' ∉ s)
    (h1 : matchTreePath s = none) (h2 : matchTreeRoot s = none) :
    NormalizeURLL (s ++ ".git".data) = ⟨s ++ ".git".data, [], []⟩ := by
  have hnq : '?' ∉ s ++ ".git".data := by
    intro hmem
    rcases List.mem_append.mp hmem with h | h
    · exact hq h
    · exact absurd h (by decide)
  have hnh : '#' ∉ s ++ ".git".data := by
    intro hmem
    rcases List.mem_append.mp hmem with h | h
    · exact hh h
    · exact absurd h (by decide)
  simp only [NormalizeURLL]
  rw [trimRightSlash_append_git]
  rw [cutAt_of_not_mem _ _ hnq, cutAt_of_not_mem _ _ hnh]
  rw [trimSuffixGit_append, h1, h2]

/-- Idempotence at the character-list level: renormalizing the `.git` URL
produced by `NormalizeURLL` returns that URL with empty branch and path. -/
theorem NormalizeURLL_idem (input : List Char) :
    NormalizeURLL (NormalizeURLL input).url = ⟨(NormalizeURLL input).url, [], []⟩ := by
  have hq0 : '?' ∉ trimSuffixGit (cutAt '#' (cutAt '?' (trimRightSlash input))) := by
    intro h
    exact not_mem_cutAt '?' (trimRightSlash input)
      (cutAt_subset '#' _ (trimSuffixGit_subset _ h))
  have hh0 : '#' ∉ trimSuffixGit (cutAt '#' (cutAt '?' (trimRightSlash input))) := by
    intro h
    exact not_mem_cutAt '#' _ (trimSuffixGit_subset _ h)
  cases htp : matchTreePath (trimSuffixGit (cutAt '#' (cutAt '?' (trimRightSlash input)))) with
  | some quad =>
    obtain ⟨u, r, b, pth⟩ := quad
    have hres : (NormalizeURLL input).url = ghLead ++ u ++ '/' :: r ++ ".git".data := by
      simp only [NormalizeURLL]
      rw [htp]
    obtain ⟨rem, hmr⟩ := matchTreePath_some htp
    obtain ⟨hdec, hu, hr, huS, hrS⟩ := matchRepo_some hmr
    have hmem : ∀ c, c ∈ u ∨ c ∈ r →
        c ∈ trimSuffixGit (cutAt '#' (cutAt '?' (trimRightSlash input))) := by
      intro c hc
      rw [hdec]
      rcases hc with h | h
      · simp [h]
      · simp [h]
    rw [hres]
    exact normalize_repo_url u r hu hr huS hrS
      (fun h => hq0 (hmem '?' (Or.inl h))) (fun h => hh0 (hmem '#' (Or.inl h)))
      (fun h => hq0 (hmem '?' (Or.inr h))) (fun h => hh0 (hmem '#' (Or.inr h)))
  | none =>
    cases htr : matchTreeRoot (trimSuffixGit (cutAt '#' (cutAt '?' (trimRightSlash input)))) with
    | some trip =>
      obtain ⟨u, r, b⟩ := trip
      have hres : (NormalizeURLL input).url = ghLead ++ u ++ '/' :: r ++ ".git".data := by
        simp only [NormalizeURLL]
        rw [htp, htr]
      obtain ⟨rem, hmr⟩ := matchTreeRoot_some htr
      obtain ⟨hdec, hu, hr, huS, hrS⟩ := matchRepo_some hmr
      have hmem : ∀ c, c ∈ u ∨ c ∈ r →
          c ∈ trimSuffixGit (cutAt '#' (cutAt '?' (trimRightSlash input))) := by
        intro c hc
        rw [hdec]
        rcases hc with h | h
        · simp [h]
        · simp [h]
      rw [hres]
      exact normalize_repo_url u r hu hr huS hrS
        (fun h => hq0 (hmem '?' (Or.inl h))) (fun h => hh0 (hmem '#' (Or.inl h)))
        (fun h => hq0 (hmem '?' (Or.inr h))) (fun h => hh0 (hmem '#' (Or.inr h)))
    | none =>
      have hres : (NormalizeURLL input).url =
          trimSuffixGit (cutAt '#' (cutAt '?' (trimRightSlash input))) ++ ".git".data := by
        simp only [NormalizeURLL]
        rw [htp, htr]
      rw [hres]
      exact normalize_plain _ hq0 hh0 htp htr

end Git

namespace Skills

theorem lookup_set_self (m : RegMap) (id : String) (v : StoredSkill) :
    lookupSkill (setSkill m id v) id = some v := by
  induction m with
  | nil => simp [setSkill, lookupSkill]
  | cons kv rest ih =>
    obtain ⟨k, w⟩ := kv
    by_cases hk : k = id
    · subst hk
      simp [setSkill, lookupSkill]
    · simp [setSkill, lookupSkill, hk, ih]

theorem lookup_set_other (m : RegMap) (id id' : String) (v : StoredSkill)
    (h : id' ≠ id) :
    lookupSkill (setSkill m id v) id' = lookupSkill m id' := by
  induction m with
  | nil => simp [setSkill, lookupSkill, Ne.symm h]
  | cons kv rest ih =>
    obtain ⟨k, w⟩ := kv
    by_cases hk : k = id
    · subst hk
      simp [setSkill, lookupSkill, Ne.symm h]
    · simp [setSkill, lookupSkill, hk, ih]

theorem lookup_remove_self (m : RegMap) (id : String) :
    lookupSkill (RemoveSkill m id) id = none := by
  induction m with
  | nil => rfl
  | cons kv rest ih =>
    obtain ⟨k, w⟩ := kv
    by_cases hk : k = id
    · subst hk
      simpa [RemoveSkill, List.filter_cons] using ih
    · simp only [RemoveSkill, List.filter_cons] at ih ⊢
      simp [hk, lookupSkill, ih]

theorem lookup_remove_other {m : RegMap} {k k' : String} (h : k' ≠ k) :
    lookupSkill (RemoveSkill m k) k' = lookupSkill m k' := by
  induction m with
  | nil => rfl
  | cons kv rest ih =>
    obtain ⟨a, w⟩ := kv
    simp only [RemoveSkill, List.filter_cons] at ih ⊢
    by_cases ha : a = k
    · have hbne : (a != k) = false := by simp [ha]
      simp only [hbne, Bool.false_eq_true, if_false]
      rw [ih]
      have hak : a ≠ k' := by rw [ha]; exact Ne.symm h
      simp [lookupSkill, hak]
    · have hbne : (a != k) = true := by simp [ha]
      simp only [hbne, if_true]
      by_cases ha' : a = k'
      · simp [lookupSkill, ha']
      · simp [lookupSkill, ha', ih]

theorem lookup_remove_none {m : RegMap} {k k' : String}
    (h : lookupSkill m k' = none) :
    lookupSkill (RemoveSkill m k) k' = none := by
  by_cases hk : k' = k
  · subst hk
    exact lookup_remove_self m k'
  · rw [lookup_remove_other hk]
    exact h

theorem mem_insertByID {t s : Skill} {l : List Skill} :
    t ∈ insertByID s l ↔ t = s ∨ t ∈ l := by
  induction l with
  | nil => simp [insertByID]
  | cons a rest ih =>
    by_cases h : s.id < a.id
    · simp [insertByID, h]
    · simp only [insertByID, if_neg h, List.mem_cons, ih]
      tauto

theorem mem_sortByID {t : Skill} {l : List Skill} : t ∈ sortByID l ↔ t ∈ l := by
  induction l with
  | nil => simp [sortByID]
  | cons a rest ih => simp [sortByID, mem_insertByID, ih]

theorem mem_getAllSkills {sk : Skill} {m : RegMap} :
    sk ∈ GetAllSkills m ↔
      (sk.id, (⟨sk.commitID, sk.type, sk.path⟩ : StoredSkill)) ∈ m := by
  unfold GetAllSkills
  rw [mem_sortByID]
  simp only [List.mem_map]
  constructor
  · rintro ⟨kv, hkv, heq⟩
    obtain ⟨k, v⟩ := kv
    cases heq
    exact hkv
  · intro h
    exact ⟨(sk.id, ⟨sk.commitID, sk.type, sk.path⟩), h, rfl⟩

theorem lookup_ne_none_of_mem {m : RegMap} {k : String} {v : StoredSkill}
    (h : (k, v) ∈ m) : lookupSkill m k ≠ none := by
  induction m with
  | nil => cases h
  | cons kv rest ih =>
    obtain ⟨k', w⟩ := kv
    rcases List.mem_cons.mp h with h1 | h1
    · cases h1
      simp [lookupSkill]
    · by_cases hk : k' = k
      · simp [lookupSkill, hk]
      · simp only [lookupSkill, if_neg hk]
        exact ih h1

theorem lookup_none_iff {m : RegMap} {k : String} :
    lookupSkill m k = none ↔ ∀ v, (k, v) ∉ m := by
  constructor
  · intro h v hv
    exact lookup_ne_none_of_mem hv h
  · intro h
    cases hl : lookupSkill m k with
    | none => rfl
    | some v =>
      exfalso
      apply h v
      clear h
      induction m with
      | nil => cases hl
      | cons kv rest ih =>
        obtain ⟨k', w⟩ := kv
        by_cases hk : k' = k
        · subst hk
          have hw : lookupSkill ((k', w) :: rest) k' = some w := by simp [lookupSkill]
          rw [hw] at hl
          cases hl
          exact List.mem_cons_self _ _
        · simp only [lookupSkill, if_neg hk] at hl
          exact List.mem_cons_of_mem _ (ih hl)

theorem setSkill_eq_of_lookup {m : RegMap} {id : String} {v : StoredSkill}
    (h : lookupSkill m id = some v) : setSkill m id v = m := by
  induction m with
  | nil => simp [lookupSkill] at h
  | cons kv rest ih =>
    obtain ⟨k, w⟩ := kv
    by_cases hk : k = id
    · subst hk
      have hw : lookupSkill ((k, w) :: rest) k = some w := by simp [lookupSkill]
      rw [hw] at h
      cases h
      simp [setSkill]
    · simp only [lookupSkill, if_neg hk] at h
      simp [setSkill, hk, ih h]

theorem mem_remove_subset {m : RegMap} {k : String} {e : String × StoredSkill}
    (h : e ∈ RemoveSkill m k) : e ∈ m :=
  (List.mem_filter.mp h).1

theorem lookup_mem {m : RegMap} {k : String} {v : StoredSkill}
    (h : lookupSkill m k = some v) : (k, v) ∈ m := by
  induction m with
  | nil => cases h
  | cons kv rest ih =>
    obtain ⟨k', w⟩ := kv
    by_cases hk : k' = k
    · subst hk
      have hw : lookupSkill ((k', w) :: rest) k' = some w := by simp [lookupSkill]
      rw [hw] at h
      cases h
      exact List.mem_cons_self _ _
    · simp only [lookupSkill, if_neg hk] at h
      exact List.mem_cons_of_mem _ (ih h)

theorem mem_remove_of_ne {m : RegMap} {k k' : String} {v : StoredSkill}
    (h : (k, v) ∈ m) (hne : k ≠ k') : (k, v) ∈ RemoveSkill m k' :=
  List.mem_filter.mpr ⟨h, by simp [hne]⟩

theorem mem_setSkill_of_ne {m : RegMap} {k id : String} {v w : StoredSkill}
    (h : (k, v) ∈ m) (hne : k ≠ id) : (k, v) ∈ setSkill m id w := by
  induction m with
  | nil => cases h
  | cons kv rest ih =>
    obtain ⟨a, b⟩ := kv
    by_cases ha : a = id
    · subst ha
      simp only [setSkill, if_pos rfl]
      rcases List.mem_cons.mp h with h1 | h1
      · rw [Prod.mk.injEq] at h1
        exact absurd h1.1 hne
      · exact List.mem_cons_of_mem _ h1
    · simp only [setSkill, if_neg ha]
      rcases List.mem_cons.mp h with h1 | h1
      · exact List.mem_cons.mpr (Or.inl h1)
      · exact List.mem_cons_of_mem _ (ih h1)

theorem mem_setSkill_elim {m : RegMap} {k id : String} {v w : StoredSkill}
    (h : (k, v) ∈ setSkill m id w) : (k, v) ∈ m ∨ (k = id ∧ v = w) := by
  induction m with
  | nil =>
    simp only [setSkill, List.mem_singleton] at h
    rw [Prod.mk.injEq] at h
    exact Or.inr h
  | cons kv rest ih =>
    obtain ⟨a, b⟩ := kv
    by_cases ha : a = id
    · subst ha
      simp only [setSkill, if_pos rfl] at h
      rcases List.mem_cons.mp h with h1 | h1
      · rw [Prod.mk.injEq] at h1
        exact Or.inr h1
      · exact Or.inl (List.mem_cons_of_mem _ h1)
    · simp only [setSkill, if_neg ha] at h
      rcases List.mem_cons.mp h with h1 | h1
      · exact Or.inl (List.mem_cons.mpr (Or.inl h1))
      · rcases ih h1 with h2 | h2
        · exact Or.inl (List.mem_cons_of_mem _ h2)
        · exact Or.inr h2

end Skills

namespace Config

/-- `takeWhile` keeps a list all of whose elements satisfy the predicate. -/
theorem takeWhile_eq_self {p : Char → Bool} {l : List Char}
    (h : ∀ c ∈ l, p c = true) : l.takeWhile p = l := by
  induction l with
  | nil => rfl
  | cons a rest ih =>
    rw [List.takeWhile_cons, if_pos (h a (List.mem_cons_self a rest))]
    rw [ih (fun c hc => h c (List.mem_cons_of_mem a hc))]

theorem replSlash_eq_self {l : List Char} (h : '/' ∉ l) : replSlash l = l := by
  induction l with
  | nil => rfl
  | cons a rest ih =>
    have ha : a ≠ '/' := fun e => h (e ▸ List.mem_cons_self a rest)
    rw [replSlash_cons_ne a rest ha, ih (fun hm => h (List.mem_cons_of_mem a hm))]

/-- For a slash-free `name`, `GetLinkName ("registry:" ++ name) = name`. -/
theorem getLinkName_registry (name : String) (h : '/' ∉ name.data) :
    GetLinkName ("registry:" ++ name) = name := by
  apply string_ext
  show GetLinkNameL ("registry:" ++ name).data = name.data
  have hd : ("registry:" ++ name).data = "registry".data ++ ':' :: name.data := rfl
  rw [hd]
  unfold GetLinkNameL
  rw [splitColonOnce_append "registry".data name.data (by decide)]
  show (name.data.reverse.takeWhile (fun a => a != '/')).reverse = name.data
  have hall : ∀ c ∈ name.data.reverse, (c != '/') = true := by
    intro c hc
    have hcm : c ∈ name.data := List.mem_reverse.mp hc
    simp only [bne_iff_ne, ne_eq]
    exact fun e => h (e ▸ hcm)
  rw [takeWhile_eq_self hall, List.reverse_reverse]

/-- For a slash-free `name`, `GetSafeName ("registry:" ++ name)` is
`"registry__" ++ name`. -/
theorem getSafeName_registry (name : String) (h : '/' ∉ name.data) :
    GetSafeName ("registry:" ++ name) = "registry__" ++ name := by
  apply string_ext
  show GetSafeNameL ("registry:" ++ name).data = ("registry__" ++ name).data
  have hd : ("registry:" ++ name).data = "registry".data ++ ':' :: name.data := rfl
  have hd2 : ("registry__" ++ name).data =
    "registry".data ++ '_' :: '_' :: name.data := rfl
  rw [hd, hd2]
  unfold GetSafeNameL
  rw [splitColonOnce_append "registry".data name.data (by decide)]
  show "registry".data ++ '_' :: '_' :: replSlash name.data = _
  rw [replSlash_eq_self h]

theorem registry_id_inj {a b : String}
    (h : ("registry:" ++ a : String) = "registry:" ++ b) : a = b := by
  have hd := congrArg String.data h
  rw [show ("registry:" ++ a).data = "registry:".data ++ a.data from rfl,
      show ("registry:" ++ b).data = "registry:".data ++ b.data from rfl] at hd
  exact string_ext a b (List.append_cancel_left hd)

theorem getSafeName_registry_inj {a b : String}
    (ha : '/' ∉ a.data) (hb : '/' ∉ b.data)
    (h : GetSafeName ("registry:" ++ a) = GetSafeName ("registry:" ++ b)) :
    a = b := by
  rw [getSafeName_registry a ha, getSafeName_registry b hb] at h
  have hd := congrArg String.data h
  rw [show ("registry__" ++ a).data = "registry__".data ++ a.data from rfl,
      show ("registry__" ++ b).data = "registry__".data ++ b.data from rfl] at hd
  exact string_ext a b (List.append_cancel_left hd)

end Config

namespace Commands

theorem linkPresent_iff {links : List (Nat × String)} {p : Nat} {ln : String} :
    linkPresent links p ln = true ↔ (p, ln) ∈ links := by
  unfold linkPresent
  rw [List.any_eq_true]
  constructor
  · rintro ⟨q, hq, hm⟩
    obtain ⟨a, b⟩ := q
    simp only [Bool.and_eq_true, beq_iff_eq] at hm
    obtain ⟨e1, e2⟩ := hm
    subst e1
    subst e2
    exact hq
  · intro h
    exact ⟨(p, ln), h, by simp⟩

theorem mem_removeLink_iff {links : List (Nat × String)} {p : Nat} {ln : String}
    {q : Nat × String} :
    q ∈ removeLink links p ln ↔ q ∈ links ∧ ¬(q.1 = p ∧ q.2 = ln) := by
  unfold removeLink
  rw [List.mem_filter]
  apply and_congr_right
  intro _
  constructor
  · intro h hc
    simp [hc.1, hc.2] at h
  · intro h
    have h2 := not_and_or.mp h
    simpa using h2

theorem linkPresent_removeLink_self (links : List (Nat × String)) (p : Nat)
    (ln : String) : linkPresent (removeLink links p ln) p ln = false := by
  cases h : linkPresent (removeLink links p ln) p ln
  · rfl
  · exfalso
    have hm := linkPresent_iff.mp h
    exact (mem_removeLink_iff.mp hm).2 ⟨rfl, rfl⟩

theorem linkPresent_false_mono {links links' : List (Nat × String)} {p : Nat}
    {ln : String} (hsub : ∀ q ∈ links', q ∈ links)
    (h : linkPresent links p ln = false) : linkPresent links' p ln = false := by
  cases hp : linkPresent links' p ln
  · rfl
  · exfalso
    have hmem := linkPresent_iff.mp hp
    have h2 := linkPresent_iff.mpr (hsub _ hmem)
    rw [h] at h2
    cases h2

theorem lookupDir_remove_other {dirs : List (String × String)} {d x : String}
    (h : x ≠ d) : lookupDir (removeDir dirs d) x = lookupDir dirs x := by
  induction dirs with
  | nil => rfl
  | cons kv rest ih =>
    obtain ⟨a, c⟩ := kv
    simp only [removeDir, List.filter_cons] at ih ⊢
    by_cases ha : a = d
    · have hb : (a != d) = false := by simp [ha]
      simp only [hb, Bool.false_eq_true, if_false]
      rw [ih]
      have hax : a ≠ x := by rw [ha]; exact Ne.symm h
      simp [lookupDir, hax]
    · have hb : (a != d) = true := by simp [ha]
      simp only [hb, if_true]
      by_cases hax : a = x
      · simp [lookupDir, hax]
      · simp [lookupDir, hax, ih]

theorem lookupDir_remove_self (dirs : List (String × String)) (d : String) :
    lookupDir (removeDir dirs d) d = none := by
  induction dirs with
  | nil => rfl
  | cons kv rest ih =>
    obtain ⟨a, c⟩ := kv
    simp only [removeDir, List.filter_cons] at ih ⊢
    by_cases ha : a = d
    · have hb : (a != d) = false := by simp [ha]
      simp only [hb, Bool.false_eq_true, if_false]
      exact ih
    · have hb : (a != d) = true := by simp [ha]
      simp only [hb, if_true]
      simp [lookupDir, ha, ih]

theorem lookupDir_remove_none {dirs : List (String × String)} {d x : String}
    (h : lookupDir dirs x = none) : lookupDir (removeDir dirs d) x = none := by
  by_cases hx : x = d
  · subst hx
    exact lookupDir_remove_self dirs _
  · rw [lookupDir_remove_other hx]
    exact h

theorem lookupDir_append (A B : List (String × String)) (x : String) :
    lookupDir (A ++ B) x =
      match lookupDir A x with
      | some v => some v
      | none => lookupDir B x := by
  induction A with
  | nil => simp [lookupDir]
  | cons kv rest ih =>
    obtain ⟨a, c⟩ := kv
    by_cases ha : a = x
    · simp [lookupDir, ha]
    · simp [lookupDir, ha, ih]

/-- `os.RemoveAll(dest)` followed by `copyDir(src, dest)` acts on the
directory map as assignment at `dest`. -/
theorem lookupDir_overwrite (dirs : List (String × String)) (d c : String)
    (x : String) :
    lookupDir (removeDir dirs d ++ [(d, c)]) x =
      if x = d then some c else lookupDir dirs x := by
  rw [lookupDir_append]
  by_cases hx : x = d
  · subst hx
    rw [lookupDir_remove_self]
    simp [lookupDir]
  · rw [lookupDir_remove_other hx]
    cases h : lookupDir dirs x with
    | some v => simp [hx]
    | none => simp [lookupDir, Ne.symm hx, hx]

theorem removeLinksStep_mem {skillID : String} {acc : (List (Nat × String)) × Nat}
    {p : Nat} {q : Nat × String} (h : q ∈ (removeLinksStep skillID acc p).1) :
    q ∈ acc.1 := by
  unfold removeLinksStep removeSkillLinkIfPresent at h
  by_cases hp : linkPresent acc.1 p (Config.GetLinkName skillID) = true
  · simp only [hp, if_true] at h
    exact (mem_removeLink_iff.mp h).1
  · simp only [Bool.not_eq_true] at hp
    simp only [hp, Bool.false_eq_true, if_false] at h
    exact h

theorem removeLinksFold_mem {skillID : String} :
    ∀ (projects : List Nat) (acc : (List (Nat × String)) × Nat) (q : Nat × String),
      q ∈ (projects.foldl (removeLinksStep skillID) acc).1 → q ∈ acc.1 := by
  intro projects
  induction projects with
  | nil =>
    intro acc q h
    exact h
  | cons p ps ih =>
    intro acc q h
    exact removeLinksStep_mem (ih _ q h)

theorem removeLinksFold_absent {skillID : String} :
    ∀ (projects : List Nat) (acc : (List (Nat × String)) × Nat) (p : Nat),
      p ∈ projects →
      linkPresent ((projects.foldl (removeLinksStep skillID) acc).1) p
        (Config.GetLinkName skillID) = false := by
  intro projects
  induction projects with
  | nil =>
    intro acc p h
    cases h
  | cons p0 ps ih =>
    intro acc p hp
    rcases List.mem_cons.mp hp with he | he
    · subst he
      apply linkPresent_false_mono (fun q hq => removeLinksFold_mem ps _ q hq)
      unfold removeLinksStep removeSkillLinkIfPresent
      by_cases hpres : linkPresent acc.1 p (Config.GetLinkName skillID) = true
      · simp only [hpres, if_true]
        exact linkPresent_removeLink_self acc.1 p (Config.GetLinkName skillID)
      · simp only [Bool.not_eq_true] at hpres
        simp [hpres]
    · exact ih _ p he

theorem removeLinksEverywhere_mem {links : List (Nat × String)} {skillID : String}
    {projects : List Nat} {q : Nat × String}
    (h : q ∈ (removeLinksEverywhere links skillID projects).1) : q ∈ links :=
  removeLinksFold_mem projects (links, 0) q h

theorem removeLinksEverywhere_absent {links : List (Nat × String)}
    {skillID : String} {projects : List Nat} {p : Nat} (hp : p ∈ projects) :
    linkPresent ((removeLinksEverywhere links skillID projects).1) p
      (Config.GetLinkName skillID) = false :=
  removeLinksFold_absent projects (links, 0) p hp

/-! ### The `removeSkillsWithLinkName` fold -/

theorem removeOneDup_skip {projects : List Nat} {linkName keepID : String}
    {acc : SyncState × Nat × Nat} {sk : Skills.Skill}
    (h : sk.id = keepID ∨ Config.GetLinkName sk.id ≠ linkName) :
    removeOneDup projects linkName keepID acc sk = acc := by
  rcases h with h | h
  · simp [removeOneDup, h]
  · by_cases hk : sk.id == keepID
    · simp [removeOneDup, hk]
    · simp [removeOneDup, hk, h]

theorem removeOneDup_active {projects : List Nat} {linkName keepID : String}
    {acc : SyncState × Nat × Nat} {sk : Skills.Skill}
    (h1 : sk.id ≠ keepID) (h2 : Config.GetLinkName sk.id = linkName) :
    removeOneDup projects linkName keepID acc sk =
      (⟨Skills.RemoveSkill acc.1.reg sk.id,
        removeDir acc.1.dirs (Config.GetSafeName sk.id),
        (removeLinksEverywhere acc.1.links sk.id projects).1⟩,
       acc.2.1 + 1,
       acc.2.2 + (removeLinksEverywhere acc.1.links sk.id projects).2) := by
  have hb1 : (sk.id == keepID) = false := by simp [h1]
  have hb2 : (Config.GetLinkName sk.id != linkName) = false := by simp [h2]
  simp [removeOneDup, hb1, hb2]

theorem dupFold_id {projects : List Nat} {linkName keepID : String} :
    ∀ (S : List Skills.Skill) (acc : SyncState × Nat × Nat),
      (∀ sk ∈ S, sk.id = keepID ∨ Config.GetLinkName sk.id ≠ linkName) →
      S.foldl (removeOneDup projects linkName keepID) acc = acc := by
  intro S
  induction S with
  | nil =>
    intro acc _
    rfl
  | cons sk S ih =>
    intro acc h
    rw [List.foldl_cons, removeOneDup_skip (h sk (List.mem_cons_self sk S))]
    exact ih acc (fun t ht => h t (List.mem_cons_of_mem sk ht))

theorem dupFold_lookup_pres {projects : List Nat} {linkName keepID : String} :
    ∀ (S : List Skills.Skill) (acc : SyncState × Nat × Nat) (k : String),
      (k = keepID ∨ Config.GetLinkName k ≠ linkName) →
      Skills.lookupSkill
          ((S.foldl (removeOneDup projects linkName keepID) acc).1).reg k =
        Skills.lookupSkill acc.1.reg k := by
  intro S
  induction S with
  | nil =>
    intro acc k _
    rfl
  | cons sk S ih =>
    intro acc k hk
    rw [List.foldl_cons, ih _ k hk]
    by_cases hs : sk.id = keepID ∨ Config.GetLinkName sk.id ≠ linkName
    · rw [removeOneDup_skip hs]
    · push_neg at hs
      obtain ⟨hs1, hs2⟩ := hs
      rw [removeOneDup_active hs1 hs2]
      apply Skills.lookup_remove_other
      intro he
      rcases hk with hk | hk
      · exact hs1 (he ▸ hk)
      · exact hk (he ▸ hs2)

theorem dupFold_lookup_none_mono {projects : List Nat} {linkName keepID : String} :
    ∀ (S : List Skills.Skill) (acc : SyncState × Nat × Nat) (k : String),
      Skills.lookupSkill acc.1.reg k = none →
      Skills.lookupSkill
          ((S.foldl (removeOneDup projects linkName keepID) acc).1).reg k = none := by
  intro S
  induction S with
  | nil =>
    intro acc k h
    exact h
  | cons sk S ih =>
    intro acc k h
    rw [List.foldl_cons]
    apply ih
    by_cases hs : sk.id = keepID ∨ Config.GetLinkName sk.id ≠ linkName
    · rw [removeOneDup_skip hs]
      exact h
    · push_neg at hs
      rw [removeOneDup_active hs.1 hs.2]
      exact Skills.lookup_remove_none h

theorem dupFold_removes {projects : List Nat} {linkName keepID : String} :
    ∀ (S : List Skills.Skill) (acc : SyncState × Nat × Nat) (sk : Skills.Skill),
      sk ∈ S → sk.id ≠ keepID → Config.GetLinkName sk.id = linkName →
      Skills.lookupSkill
          ((S.foldl (removeOneDup projects linkName keepID) acc).1).reg sk.id =
        none := by
  intro S
  induction S with
  | nil =>
    intro acc sk h
    cases h
  | cons sk0 S ih =>
    intro acc sk hmem h1 h2
    rcases List.mem_cons.mp hmem with he | he
    · subst he
      rw [List.foldl_cons]
      apply dupFold_lookup_none_mono
      rw [removeOneDup_active h1 h2]
      exact Skills.lookup_remove_self _ _
    · rw [List.foldl_cons]
      exact ih _ sk he h1 h2

theorem dupFold_dirs_pres {projects : List Nat} {linkName keepID : String} :
    ∀ (S : List Skills.Skill) (acc : SyncState × Nat × Nat) (d : String),
      (∀ sk ∈ S, sk.id ≠ keepID → Config.GetLinkName sk.id = linkName →
        Config.GetSafeName sk.id ≠ d) →
      lookupDir ((S.foldl (removeOneDup projects linkName keepID) acc).1).dirs d =
        lookupDir acc.1.dirs d := by
  intro S
  induction S with
  | nil =>
    intro acc d _
    rfl
  | cons sk S ih =>
    intro acc d h
    rw [List.foldl_cons, ih _ d (fun t ht => h t (List.mem_cons_of_mem sk ht))]
    by_cases hs : sk.id = keepID ∨ Config.GetLinkName sk.id ≠ linkName
    · rw [removeOneDup_skip hs]
    · push_neg at hs
      rw [removeOneDup_active hs.1 hs.2]
      exact lookupDir_remove_other (Ne.symm (h sk (List.mem_cons_self sk S) hs.1 hs.2))

theorem dupFold_dirs_none_mono {projects : List Nat} {linkName keepID : String} :
    ∀ (S : List Skills.Skill) (acc : SyncState × Nat × Nat) (d : String),
      lookupDir acc.1.dirs d = none →
      lookupDir ((S.foldl (removeOneDup projects linkName keepID) acc).1).dirs d =
        none := by
  intro S
  induction S with
  | nil =>
    intro acc d h
    exact h
  | cons sk S ih =>
    intro acc d h
    rw [List.foldl_cons]
    apply ih
    by_cases hs : sk.id = keepID ∨ Config.GetLinkName sk.id ≠ linkName
    · rw [removeOneDup_skip hs]
      exact h
    · push_neg at hs
      rw [removeOneDup_active hs.1 hs.2]
      exact lookupDir_remove_none h

theorem dupFold_dir_removed {projects : List Nat} {linkName keepID : String} :
    ∀ (S : List Skills.Skill) (acc : SyncState × Nat × Nat) (sk : Skills.Skill),
      sk ∈ S → sk.id ≠ keepID → Config.GetLinkName sk.id = linkName →
      lookupDir ((S.foldl (removeOneDup projects linkName keepID) acc).1).dirs
        (Config.GetSafeName sk.id) = none := by
  intro S
  induction S with
  | nil =>
    intro acc sk h
    cases h
  | cons sk0 S ih =>
    intro acc sk hmem h1 h2
    rcases List.mem_cons.mp hmem with he | he
    · subst he
      rw [List.foldl_cons]
      apply dupFold_dirs_none_mono
      rw [removeOneDup_active h1 h2]
      exact lookupDir_remove_self _ _
    · rw [List.foldl_cons]
      exact ih _ sk he h1 h2

theorem dupFold_links_sub {projects : List Nat} {linkName keepID : String} :
    ∀ (S : List Skills.Skill) (acc : SyncState × Nat × Nat) (q : Nat × String),
      q ∈ ((S.foldl (removeOneDup projects linkName keepID) acc).1).links →
      q ∈ acc.1.links := by
  intro S
  induction S with
  | nil =>
    intro acc q h
    exact h
  | cons sk S ih =>
    intro acc q h
    rw [List.foldl_cons] at h
    have h2 := ih _ q h
    by_cases hs : sk.id = keepID ∨ Config.GetLinkName sk.id ≠ linkName
    · rw [removeOneDup_skip hs] at h2
      exact h2
    · push_neg at hs
      rw [removeOneDup_active hs.1 hs.2] at h2
      exact removeLinksEverywhere_mem h2

theorem dupFold_link_removed {projects : List Nat} {linkName keepID : String} :
    ∀ (S : List Skills.Skill) (acc : SyncState × Nat × Nat) (sk : Skills.Skill)
      (p : Nat), sk ∈ S → sk.id ≠ keepID →
      Config.GetLinkName sk.id = linkName → p ∈ projects →
      linkPresent ((S.foldl (removeOneDup projects linkName keepID) acc).1).links
        p linkName = false := by
  intro S
  induction S with
  | nil =>
    intro acc sk p h
    cases h
  | cons sk0 S ih =>
    intro acc sk p hmem h1 h2 hp
    rcases List.mem_cons.mp hmem with he | he
    · subst he
      rw [List.foldl_cons]
      apply linkPresent_false_mono (fun q hq => dupFold_links_sub S _ q hq)
      rw [removeOneDup_active h1 h2]
      rw [← h2]
      exact removeLinksEverywhere_absent hp
    · rw [List.foldl_cons]
      exact ih _ sk p he h1 h2 hp

theorem dupFold_entries_mono {projects : List Nat} {linkName keepID : String} :
    ∀ (S : List Skills.Skill) (acc : SyncState × Nat × Nat)
      (e : String × Skills.StoredSkill),
      e ∈ ((S.foldl (removeOneDup projects linkName keepID) acc).1).reg →
      e ∈ acc.1.reg := by
  intro S
  induction S with
  | nil =>
    intro acc e h
    exact h
  | cons sk S ih =>
    intro acc e h
    rw [List.foldl_cons] at h
    have h2 := ih _ e h
    by_cases hs : sk.id = keepID ∨ Config.GetLinkName sk.id ≠ linkName
    · rw [removeOneDup_skip hs] at h2
      exact h2
    · push_neg at hs
      rw [removeOneDup_active hs.1 hs.2] at h2
      exact Skills.mem_remove_subset h2

theorem dupFold_entry_pres {projects : List Nat} {linkName keepID : String} :
    ∀ (S : List Skills.Skill) (acc : SyncState × Nat × Nat)
      (k : String) (v : Skills.StoredSkill),
      (k, v) ∈ acc.1.reg → (k = keepID ∨ Config.GetLinkName k ≠ linkName) →
      (k, v) ∈ ((S.foldl (removeOneDup projects linkName keepID) acc).1).reg := by
  intro S
  induction S with
  | nil =>
    intro acc k v h _
    exact h
  | cons sk S ih =>
    intro acc k v h hk
    rw [List.foldl_cons]
    apply ih _ k v _ hk
    by_cases hs : sk.id = keepID ∨ Config.GetLinkName sk.id ≠ linkName
    · rw [removeOneDup_skip hs]
      exact h
    · push_neg at hs
      rw [removeOneDup_active hs.1 hs.2]
      apply Skills.mem_remove_of_ne h
      intro he
      rcases hk with hk | hk
      · exact hs.1 (he ▸ hk)
      · exact hk (he ▸ hs.2)

/-- `removeSkillsWithLinkName` is the identity when no registry record
other than `keepID` bears `linkName`. -/
theorem rswln_id {st : SyncState} {linkName keepID : String} {projects : List Nat}
    (h : ∀ k v, (k, v) ∈ st.reg → k = keepID ∨ Config.GetLinkName k ≠ linkName) :
    removeSkillsWithLinkName st linkName keepID projects = (st, 0, 0) := by
  unfold removeSkillsWithLinkName
  apply dupFold_id
  intro sk hsk
  exact h sk.id _ (Skills.mem_getAllSkills.mp hsk)

theorem rswln_lookup_pres {st : SyncState} {target keep : String}
    {projects : List Nat} {k : String}
    (h : k = keep ∨ Config.GetLinkName k ≠ target) :
    Skills.lookupSkill ((removeSkillsWithLinkName st target keep projects).1).reg k =
      Skills.lookupSkill st.reg k := by
  unfold removeSkillsWithLinkName
  exact dupFold_lookup_pres _ _ k h

theorem rswln_lookup_none_mono {st : SyncState} {target keep : String}
    {projects : List Nat} {k : String}
    (h : Skills.lookupSkill st.reg k = none) :
    Skills.lookupSkill ((removeSkillsWithLinkName st target keep projects).1).reg k =
      none := by
  unfold removeSkillsWithLinkName
  exact dupFold_lookup_none_mono _ _ k h

theorem rswln_dirs_none_mono {st : SyncState} {target keep : String}
    {projects : List Nat} {d : String} (h : lookupDir st.dirs d = none) :
    lookupDir ((removeSkillsWithLinkName st target keep projects).1).dirs d =
      none := by
  unfold removeSkillsWithLinkName
  exact dupFold_dirs_none_mono _ _ d h

theorem rswln_entries_mono {st : SyncState} {target keep : String}
    {projects : List Nat} {e : String × Skills.StoredSkill}
    (h : e ∈ ((removeSkillsWithLinkName st target keep projects).1).reg) :
    e ∈ st.reg := by
  unfold removeSkillsWithLinkName at h
  exact dupFold_entries_mono _ _ e h

theorem rswln_entry_pres {st : SyncState} {target keep : String}
    {projects : List Nat} {k : String} {v : Skills.StoredSkill}
    (h : (k, v) ∈ st.reg) (hk : k = keep ∨ Config.GetLinkName k ≠ target) :
    (k, v) ∈ ((removeSkillsWithLinkName st target keep projects).1).reg := by
  unfold removeSkillsWithLinkName
  exact dupFold_entry_pres _ _ k v h hk

theorem rswln_links_sub {st : SyncState} {target keep : String}
    {projects : List Nat} {q : Nat × String}
    (h : q ∈ ((removeSkillsWithLinkName st target keep projects).1).links) :
    q ∈ st.links := by
  unfold removeSkillsWithLinkName at h
  exact dupFold_links_sub _ _ q h

theorem rswln_removes {st : SyncState} {target keep : String}
    {projects : List Nat} {k : String} {v : Skills.StoredSkill}
    (hm : (k, v) ∈ st.reg) (h1 : k ≠ keep) (h2 : Config.GetLinkName k = target) :
    Skills.lookupSkill ((removeSkillsWithLinkName st target keep projects).1).reg k =
      none := by
  unfold removeSkillsWithLinkName
  exact dupFold_removes _ _ ⟨k, v.commitID, v.type, v.path⟩
    (Skills.mem_getAllSkills.mpr hm) h1 h2

theorem rswln_dir_removed {st : SyncState} {target keep : String}
    {projects : List Nat} {k : String} {v : Skills.StoredSkill}
    (hm : (k, v) ∈ st.reg) (h1 : k ≠ keep) (h2 : Config.GetLinkName k = target) :
    lookupDir ((removeSkillsWithLinkName st target keep projects).1).dirs
      (Config.GetSafeName k) = none := by
  unfold removeSkillsWithLinkName
  exact dupFold_dir_removed _ _ ⟨k, v.commitID, v.type, v.path⟩
    (Skills.mem_getAllSkills.mpr hm) h1 h2

theorem rswln_link_removed {st : SyncState} {target keep : String}
    {projects : List Nat} {k : String} {v : Skills.StoredSkill} {p : Nat}
    (hm : (k, v) ∈ st.reg) (h1 : k ≠ keep) (h2 : Config.GetLinkName k = target)
    (hp : p ∈ projects) :
    linkPresent ((removeSkillsWithLinkName st target keep projects).1).links p
      target = false := by
  unfold removeSkillsWithLinkName
  exact dupFold_link_removed _ _ ⟨k, v.commitID, v.type, v.path⟩ p
    (Skills.mem_getAllSkills.mpr hm) h1 h2 hp

theorem rswln_dirs_pres {st : SyncState} {target keep : String}
    {projects : List Nat} {d : String}
    (h : ∀ (k : String) (v : Skills.StoredSkill), (k, v) ∈ st.reg → k ≠ keep →
      Config.GetLinkName k = target → Config.GetSafeName k ≠ d) :
    lookupDir ((removeSkillsWithLinkName st target keep projects).1).dirs d =
      lookupDir st.dirs d := by
  unfold removeSkillsWithLinkName
  exact dupFold_dirs_pres _ _ d
    (fun sk hsk h1 h2 => h sk.id _ (Skills.mem_getAllSkills.mp hsk) h1 h2)

/-! ### The removal-phase fold -/

theorem removeGoneStep_skip {foundIds : List String} {projects : List Nat}
    {acc : SyncState × SyncCounts} {sk : Skills.Skill}
    (h : ¬(sk.type = "registry" ∧ sk.id ∉ foundIds)) :
    removeGoneStep foundIds projects acc sk = acc := by
  have hb : ¬((sk.type == "registry" && !(foundIds.contains sk.id)) = true) := by
    by_cases ht : sk.type = "registry"
    · by_cases hf : sk.id ∈ foundIds
      · simp [List.elem_iff, hf]
      · exact absurd ⟨ht, hf⟩ h
    · simp [ht]
  unfold removeGoneStep
  rw [if_neg hb]

theorem removeGoneStep_active {foundIds : List String} {projects : List Nat}
    {acc : SyncState × SyncCounts} {sk : Skills.Skill}
    (h1 : sk.type = "registry") (h2 : sk.id ∉ foundIds) :
    removeGoneStep foundIds projects acc sk =
      (⟨Skills.RemoveSkill acc.1.reg sk.id,
        removeDir acc.1.dirs (Config.GetSafeName sk.id),
        (removeLinksEverywhere acc.1.links sk.id projects).1⟩,
       { acc.2 with removed := acc.2.removed + 1,
                    linkCleanup := acc.2.linkCleanup +
                      (removeLinksEverywhere acc.1.links sk.id projects).2 }) := by
  have hb : (sk.type == "registry" && !(foundIds.contains sk.id)) = true := by
    simp [List.elem_iff, h1, h2]
  unfold removeGoneStep
  rw [if_pos hb]

theorem goneFold_id {foundIds : List String} {projects : List Nat} :
    ∀ (S : List Skills.Skill) (acc : SyncState × SyncCounts),
      (∀ sk ∈ S, sk.type = "registry" → sk.id ∈ foundIds) →
      S.foldl (removeGoneStep foundIds projects) acc = acc := by
  intro S
  induction S with
  | nil =>
    intro acc _
    rfl
  | cons sk S ih =>
    intro acc h
    rw [List.foldl_cons, removeGoneStep_skip
      (fun hc => hc.2 (h sk (List.mem_cons_self sk S) hc.1))]
    exact ih acc (fun t ht => h t (List.mem_cons_of_mem sk ht))

theorem goneFold_lookup_pres {foundIds : List String} {projects : List Nat} :
    ∀ (S : List Skills.Skill) (acc : SyncState × SyncCounts) (k : String),
      k ∈ foundIds →
      Skills.lookupSkill ((S.foldl (removeGoneStep foundIds projects) acc).1).reg k =
        Skills.lookupSkill acc.1.reg k := by
  intro S
  induction S with
  | nil =>
    intro acc k _
    rfl
  | cons sk S ih =>
    intro acc k hk
    rw [List.foldl_cons, ih _ k hk]
    by_cases hs : sk.type = "registry" ∧ sk.id ∉ foundIds
    · rw [removeGoneStep_active hs.1 hs.2]
      apply Skills.lookup_remove_other
      intro he
      exact hs.2 (he ▸ hk)
    · rw [removeGoneStep_skip hs]

theorem goneFold_lookup_none_mono {foundIds : List String} {projects : List Nat} :
    ∀ (S : List Skills.Skill) (acc : SyncState × SyncCounts) (k : String),
      Skills.lookupSkill acc.1.reg k = none →
      Skills.lookupSkill ((S.foldl (removeGoneStep foundIds projects) acc).1).reg k =
        none := by
  intro S
  induction S with
  | nil =>
    intro acc k h
    exact h
  | cons sk S ih =>
    intro acc k h
    rw [List.foldl_cons]
    apply ih
    by_cases hs : sk.type = "registry" ∧ sk.id ∉ foundIds
    · rw [removeGoneStep_active hs.1 hs.2]
      exact Skills.lookup_remove_none h
    · rw [removeGoneStep_skip hs]
      exact h

theorem goneFold_dirs_pres {foundIds : List String} {projects : List Nat} :
    ∀ (S : List Skills.Skill) (acc : SyncState × SyncCounts) (d : String),
      (∀ sk ∈ S, sk.type = "registry" → sk.id ∉ foundIds →
        Config.GetSafeName sk.id ≠ d) →
      lookupDir ((S.foldl (removeGoneStep foundIds projects) acc).1).dirs d =
        lookupDir acc.1.dirs d := by
  intro S
  induction S with
  | nil =>
    intro acc d _
    rfl
  | cons sk S ih =>
    intro acc d h
    rw [List.foldl_cons, ih _ d (fun t ht => h t (List.mem_cons_of_mem sk ht))]
    by_cases hs : sk.type = "registry" ∧ sk.id ∉ foundIds
    · rw [removeGoneStep_active hs.1 hs.2]
      exact lookupDir_remove_other
        (Ne.symm (h sk (List.mem_cons_self sk S) hs.1 hs.2))
    · rw [removeGoneStep_skip hs]

theorem goneFold_dirs_none_mono {foundIds : List String} {projects : List Nat} :
    ∀ (S : List Skills.Skill) (acc : SyncState × SyncCounts) (d : String),
      lookupDir acc.1.dirs d = none →
      lookupDir ((S.foldl (removeGoneStep foundIds projects) acc).1).dirs d =
        none := by
  intro S
  induction S with
  | nil =>
    intro acc d h
    exact h
  | cons sk S ih =>
    intro acc d h
    rw [List.foldl_cons]
    apply ih
    by_cases hs : sk.type = "registry" ∧ sk.id ∉ foundIds
    · rw [removeGoneStep_active hs.1 hs.2]
      exact lookupDir_remove_none h
    · rw [removeGoneStep_skip hs]
      exact h

theorem goneFold_links_sub {foundIds : List String} {projects : List Nat} :
    ∀ (S : List Skills.Skill) (acc : SyncState × SyncCounts) (q : Nat × String),
      q ∈ ((S.foldl (removeGoneStep foundIds projects) acc).1).links →
      q ∈ acc.1.links := by
  intro S
  induction S with
  | nil =>
    intro acc q h
    exact h
  | cons sk S ih =>
    intro acc q h
    rw [List.foldl_cons] at h
    have h2 := ih _ q h
    by_cases hs : sk.type = "registry" ∧ sk.id ∉ foundIds
    · rw [removeGoneStep_active hs.1 hs.2] at h2
      exact removeLinksEverywhere_mem h2
    · rw [removeGoneStep_skip hs] at h2
      exact h2

theorem goneFold_entries_mono {foundIds : List String} {projects : List Nat} :
    ∀ (S : List Skills.Skill) (acc : SyncState × SyncCounts)
      (e : String × Skills.StoredSkill),
      e ∈ ((S.foldl (removeGoneStep foundIds projects) acc).1).reg →
      e ∈ acc.1.reg := by
  intro S
  induction S with
  | nil =>
    intro acc e h
    exact h
  | cons sk S ih =>
    intro acc e h
    rw [List.foldl_cons] at h
    have h2 := ih _ e h
    by_cases hs : sk.type = "registry" ∧ sk.id ∉ foundIds
    · rw [removeGoneStep_active hs.1 hs.2] at h2
      exact Skills.mem_remove_subset h2
    · rw [removeGoneStep_skip hs] at h2
      exact h2

theorem goneFold_removes {foundIds : List String} {projects : List Nat} :
    ∀ (S : List Skills.Skill) (acc : SyncState × SyncCounts) (sk : Skills.Skill),
      sk ∈ S → sk.type = "registry" → sk.id ∉ foundIds →
      Skills.lookupSkill ((S.foldl (removeGoneStep foundIds projects) acc).1).reg
        sk.id = none := by
  intro S
  induction S with
  | nil =>
    intro acc sk h
    cases h
  | cons sk0 S ih =>
    intro acc sk hmem h1 h2
    rcases List.mem_cons.mp hmem with he | he
    · subst he
      rw [List.foldl_cons]
      apply goneFold_lookup_none_mono
      rw [removeGoneStep_active h1 h2]
      exact Skills.lookup_remove_self _ _
    · rw [List.foldl_cons]
      exact ih _ sk he h1 h2

/-- After the removal phase over a snapshot that covers the registry,
every `registry`-typed record that remains is among the found ids. -/
theorem goneFold_registry_found {foundIds : List String} {projects : List Nat}
    {S : List Skills.Skill} {acc : SyncState × SyncCounts}
    (hS : ∀ (k : String) (v : Skills.StoredSkill), (k, v) ∈ acc.1.reg →
      (⟨k, v.commitID, v.type, v.path⟩ : Skills.Skill) ∈ S) :
    ∀ (k : String) (v : Skills.StoredSkill),
      (k, v) ∈ ((S.foldl (removeGoneStep foundIds projects) acc).1).reg →
      v.type = "registry" → k ∈ foundIds := by
  intro k v hmem htype
  by_contra hk
  have hacc : (k, v) ∈ acc.1.reg := goneFold_entries_mono S acc (k, v) hmem
  have hsk := hS k v hacc
  have hnone := @goneFold_removes foundIds projects
    S acc ⟨k, v.commitID, v.type, v.path⟩ hsk htype hk
  exact Skills.lookup_ne_none_of_mem hmem hnone

/-! ### The main `SyncSkills` loop -/

/-- The state part of one main-loop iteration, written out. -/
theorem syncStep_state (projects : List Nat) (acc : SyncState × SyncCounts)
    (u : UpSkill) :
    (syncStep projects acc u).1 =
      ⟨Skills.setSkill
          ((removeSkillsWithLinkName acc.1 u.name ("registry:" ++ u.name)
            projects).1).reg
          ("registry:" ++ u.name) ⟨u.commitID, "registry", ""⟩,
        removeDir
            ((removeSkillsWithLinkName acc.1 u.name ("registry:" ++ u.name)
              projects).1).dirs
            (Config.GetSafeName ("registry:" ++ u.name)) ++
          [(Config.GetSafeName ("registry:" ++ u.name), u.content)],
        ((removeSkillsWithLinkName acc.1 u.name ("registry:" ++ u.name)
          projects).1).links⟩ := by
  unfold syncStep Skills.AddSkill
  cases Skills.GetSkill
      ((removeSkillsWithLinkName acc.1 u.name ("registry:" ++ u.name)
        projects).1).reg ("registry:" ++ u.name) with
  | none => rfl
  | some e =>
    by_cases hc : e.commitID != u.commitID
    · simp only [hc]
    · simp only [hc]

/-- A main-loop iteration on a state already synced for `u` leaves the
registry and links alone, rewrites the skill directory with identical
content, and counts the skill as unchanged. -/
theorem syncStep_noop {projects : List Nat} {acc : SyncState × SyncCounts}
    {u : UpSkill}
    (hreg : ∀ (k : String) (v : Skills.StoredSkill), (k, v) ∈ acc.1.reg →
      k = "registry:" ++ u.name ∨ Config.GetLinkName k ≠ u.name)
    (hlook : Skills.lookupSkill acc.1.reg ("registry:" ++ u.name) =
      some ⟨u.commitID, "registry", ""⟩) :
    syncStep projects acc u =
      (⟨acc.1.reg,
        removeDir acc.1.dirs (Config.GetSafeName ("registry:" ++ u.name)) ++
          [(Config.GetSafeName ("registry:" ++ u.name), u.content)],
        acc.1.links⟩,
       { acc.2 with unchanged := acc.2.unchanged + 1 }) := by
  simp only [syncStep]
  rw [rswln_id hreg]
  simp only [Skills.GetSkill, hlook, Option.map_some]
  rw [Skills.AddSkill, Skills.setSkill_eq_of_lookup hlook]
  simp

theorem mainFold_links_mono {projects : List Nat} :
    ∀ (rem : List UpSkill) (acc : SyncState × SyncCounts) (q : Nat × String),
      q ∈ ((rem.foldl (syncStep projects) acc).1).links → q ∈ acc.1.links := by
  intro rem
  induction rem with
  | nil =>
    intro acc q h
    exact h
  | cons u rem ih =>
    intro acc q h
    rw [List.foldl_cons] at h
    have h2 := ih _ q h
    rw [syncStep_state] at h2
    exact dupFold_links_sub _ _ q h2

/-- A run of the main loop over a state already synced for every skill
in `rem` leaves the registry and the links untouched, the directory map
extensionally untouched, and adds nothing to the added/updated counters. -/
theorem mainFold_noop {projects : List Nat} :
    ∀ (rem : List UpSkill) (acc : SyncState × SyncCounts),
      (∀ u ∈ rem,
        (∀ (k : String) (v : Skills.StoredSkill), (k, v) ∈ acc.1.reg →
          k = "registry:" ++ u.name ∨ Config.GetLinkName k ≠ u.name) ∧
        Skills.lookupSkill acc.1.reg ("registry:" ++ u.name) =
          some ⟨u.commitID, "registry", ""⟩ ∧
        lookupDir acc.1.dirs (Config.GetSafeName ("registry:" ++ u.name)) =
          some u.content) →
      ((rem.foldl (syncStep projects) acc).1.reg = acc.1.reg ∧
       (rem.foldl (syncStep projects) acc).1.links = acc.1.links ∧
       (∀ d, lookupDir (rem.foldl (syncStep projects) acc).1.dirs d =
         lookupDir acc.1.dirs d) ∧
       (rem.foldl (syncStep projects) acc).2.added = acc.2.added ∧
       (rem.foldl (syncStep projects) acc).2.updated = acc.2.updated ∧
       (rem.foldl (syncStep projects) acc).2.removed = acc.2.removed) := by
  intro rem
  induction rem with
  | nil =>
    intro acc _
    exact ⟨rfl, rfl, fun d => rfl, rfl, rfl, rfl⟩
  | cons u rem ih =>
    intro acc h
    have hu := h u (List.mem_cons_self u rem)
    have hstep := @syncStep_noop projects acc u hu.1 hu.2.1
    rw [List.foldl_cons, hstep]
    have hdirs : ∀ d,
        lookupDir (removeDir acc.1.dirs
            (Config.GetSafeName ("registry:" ++ u.name)) ++
          [(Config.GetSafeName ("registry:" ++ u.name), u.content)]) d =
        lookupDir acc.1.dirs d := by
      intro d
      rw [lookupDir_overwrite]
      by_cases hd : d = Config.GetSafeName ("registry:" ++ u.name)
      · rw [if_pos hd, hd, hu.2.2]
      · rw [if_neg hd]
    have ihh := ih (⟨acc.1.reg,
        removeDir acc.1.dirs (Config.GetSafeName ("registry:" ++ u.name)) ++
          [(Config.GetSafeName ("registry:" ++ u.name), u.content)],
        acc.1.links⟩,
      { acc.2 with unchanged := acc.2.unchanged + 1 })
      (by
        intro u' hu'
        have h3 := h u' (List.mem_cons_of_mem u hu')
        exact ⟨h3.1, h3.2.1, by rw [hdirs]; exact h3.2.2⟩)
    refine ⟨ihh.1, ihh.2.1, ?_, ihh.2.2.2.1, ihh.2.2.2.2.1, ihh.2.2.2.2.2⟩
    intro d
    rw [ihh.2.2.1 d]
    exact hdirs d

/-! ### Invariants established by the first sync run -/

/-- One main-loop step preserves the safe-name coherence invariant: every
registry key whose safe name collides with that of a `registry:`-id from
`allNames` is that very id. -/
theorem syncStep_alias {projects : List Nat} {allNames : List String}
    {acc : SyncState × SyncCounts} {u : UpSkill}
    (hsf : ∀ nm ∈ allNames, '/' ∉ nm.data) (hun : u.name ∈ allNames)
    (h : ∀ (k : String) (v : Skills.StoredSkill), (k, v) ∈ acc.1.reg →
      ∀ nm ∈ allNames,
        Config.GetSafeName k = Config.GetSafeName ("registry:" ++ nm) →
        k = "registry:" ++ nm) :
    ∀ (k : String) (v : Skills.StoredSkill),
      (k, v) ∈ (syncStep projects acc u).1.reg →
      ∀ nm ∈ allNames,
        Config.GetSafeName k = Config.GetSafeName ("registry:" ++ nm) →
        k = "registry:" ++ nm := by
  intro k v hk nm hnm hsafe
  rw [syncStep_state] at hk
  simp only at hk
  rcases Skills.mem_setSkill_elim hk with h1 | h1
  · exact h k v (rswln_entries_mono h1) nm hnm hsafe
  · rw [h1.1] at hsafe ⊢
    rw [Config.getSafeName_registry_inj (hsf u.name hun) (hsf nm hnm) hsafe]

theorem mainFold_alias {projects : List Nat} {allNames : List String}
    (hsf : ∀ nm ∈ allNames, '/' ∉ nm.data) :
    ∀ (rem : List UpSkill) (acc : SyncState × SyncCounts),
      (∀ u ∈ rem, u.name ∈ allNames) →
      (∀ (k : String) (v : Skills.StoredSkill), (k, v) ∈ acc.1.reg →
        ∀ nm ∈ allNames,
          Config.GetSafeName k = Config.GetSafeName ("registry:" ++ nm) →
          k = "registry:" ++ nm) →
      ∀ (k : String) (v : Skills.StoredSkill),
        (k, v) ∈ ((rem.foldl (syncStep projects) acc).1).reg →
        ∀ nm ∈ allNames,
          Config.GetSafeName k = Config.GetSafeName ("registry:" ++ nm) →
          k = "registry:" ++ nm := by
  intro rem
  induction rem with
  | nil =>
    intro acc _ h
    exact h
  | cons u rem ih =>
    intro acc hn h
    rw [List.foldl_cons]
    exact ih _ (fun t ht => hn t (List.mem_cons_of_mem u ht))
      (syncStep_alias hsf (hn u (List.mem_cons_self u rem)) h)

theorem mainFold_regsome_pres {projects : List Nat} :
    ∀ (rem : List UpSkill) (acc : SyncState × SyncCounts) (k : String)
      (X : Skills.StoredSkill),
      (∀ u ∈ rem, k ≠ ("registry:" ++ u.name) ∧ Config.GetLinkName k ≠ u.name) →
      Skills.lookupSkill acc.1.reg k = some X →
      Skills.lookupSkill ((rem.foldl (syncStep projects) acc).1).reg k = some X := by
  intro rem
  induction rem with
  | nil =>
    intro acc k X _ h
    exact h
  | cons u rem ih =>
    intro acc k X hk h
    rw [List.foldl_cons]
    apply ih _ k X (fun t ht => hk t (List.mem_cons_of_mem u ht))
    rw [syncStep_state]
    simp only
    have hu0 := hk u (List.mem_cons_self u rem)
    rw [Skills.lookup_set_other _ _ _ _ hu0.1, rswln_lookup_pres (Or.inr hu0.2)]
    exact h

theorem mainFold_regnone_pres {projects : List Nat} :
    ∀ (rem : List UpSkill) (acc : SyncState × SyncCounts) (k : String),
      (∀ u ∈ rem, k ≠ ("registry:" ++ u.name)) →
      Skills.lookupSkill acc.1.reg k = none →
      Skills.lookupSkill ((rem.foldl (syncStep projects) acc).1).reg k = none := by
  intro rem
  induction rem with
  | nil =>
    intro acc k _ h
    exact h
  | cons u rem ih =>
    intro acc k hk h
    rw [List.foldl_cons]
    apply ih _ k (fun t ht => hk t (List.mem_cons_of_mem u ht))
    rw [syncStep_state]
    simp only
    rw [Skills.lookup_set_other _ _ _ _ (hk u (List.mem_cons_self u rem))]
    exact rswln_lookup_none_mono h

theorem mainFold_dirnone_pres {projects : List Nat} :
    ∀ (rem : List UpSkill) (acc : SyncState × SyncCounts) (d : String),
      (∀ u ∈ rem, d ≠ Config.GetSafeName ("registry:" ++ u.name)) →
      lookupDir acc.1.dirs d = none →
      lookupDir ((rem.foldl (syncStep projects) acc).1).dirs d = none := by
  intro rem
  induction rem with
  | nil =>
    intro acc d _ h
    exact h
  | cons u rem ih =>
    intro acc d hd h
    rw [List.foldl_cons]
    apply ih _ d (fun t ht => hd t (List.mem_cons_of_mem u ht))
    rw [syncStep_state]
    simp only
    rw [lookupDir_overwrite, if_neg (hd u (List.mem_cons_self u rem))]
    exact rswln_dirs_none_mono h

theorem mainFold_dirsome_pres {projects : List Nat} {allNames : List String}
    (hsf : ∀ nm ∈ allNames, '/' ∉ nm.data) :
    ∀ (rem : List UpSkill) (acc : SyncState × SyncCounts) (nm0 y : String),
      (∀ u ∈ rem, u.name ∈ allNames) →
      (∀ (k : String) (v : Skills.StoredSkill), (k, v) ∈ acc.1.reg →
        ∀ nm ∈ allNames,
          Config.GetSafeName k = Config.GetSafeName ("registry:" ++ nm) →
          k = "registry:" ++ nm) →
      nm0 ∈ allNames → nm0 ∉ rem.map (fun u => u.name) →
      lookupDir acc.1.dirs (Config.GetSafeName ("registry:" ++ nm0)) = some y →
      lookupDir ((rem.foldl (syncStep projects) acc).1).dirs
        (Config.GetSafeName ("registry:" ++ nm0)) = some y := by
  intro rem
  induction rem with
  | nil =>
    intro acc nm0 y _ _ _ _ h
    exact h
  | cons u rem ih =>
    intro acc nm0 y hn halias hnm0 hnot h
    have hne : nm0 ≠ u.name := by
      intro e
      exact hnot (by simp [e])
    rw [List.foldl_cons]
    apply ih _ nm0 y (fun t ht => hn t (List.mem_cons_of_mem u ht))
      (syncStep_alias hsf (hn u (List.mem_cons_self u rem)) halias) hnm0
      (by
        intro hm
        exact hnot (by simp only [List.map_cons, List.mem_cons]; exact Or.inr hm))
    rw [syncStep_state]
    simp only
    rw [lookupDir_overwrite, if_neg (by
      intro he
      exact hne (Config.getSafeName_registry_inj (hsf nm0 hnm0)
        (hsf u.name (hn u (List.mem_cons_self u rem))) he))]
    rw [rswln_dirs_pres (by
      intro k v hkv hkne hlink
      intro hsafe
      have hk := halias k v hkv nm0 hnm0 hsafe
      rw [hk] at hlink
      rw [Config.getLinkName_registry nm0 (hsf nm0 hnm0)] at hlink
      exact hne hlink)]
    exact h

/-- The first run of the main loop establishes the synced configuration:
for every processed upstream skill the `registry:` record carries the
fresh commit id, no other record shares its link name, its repository
directory holds the copied content, and the records that did share its
link name have lost their registry entry, directory and project links. -/
theorem mainFold_establish {projects : List Nat} {allNames : List String}
    (hsf : ∀ nm ∈ allNames, '/' ∉ nm.data) :
    ∀ (rem : List UpSkill) (acc : SyncState × SyncCounts),
      (rem.map (fun u => u.name)).Nodup →
      (∀ u ∈ rem, u.name ∈ allNames) →
      (∀ (k : String) (v : Skills.StoredSkill), (k, v) ∈ acc.1.reg →
        ∀ nm ∈ allNames,
          Config.GetSafeName k = Config.GetSafeName ("registry:" ++ nm) →
          k = "registry:" ++ nm) →
      ∀ u ∈ rem,
        (Skills.lookupSkill ((rem.foldl (syncStep projects) acc).1).reg
            ("registry:" ++ u.name) = some ⟨u.commitID, "registry", ""⟩) ∧
        (∀ k : String, k ≠ "registry:" ++ u.name → Config.GetLinkName k = u.name →
          Skills.lookupSkill ((rem.foldl (syncStep projects) acc).1).reg k = none) ∧
        (lookupDir ((rem.foldl (syncStep projects) acc).1).dirs
            (Config.GetSafeName ("registry:" ++ u.name)) = some u.content) ∧
        (∀ (k : String) (v : Skills.StoredSkill), (k, v) ∈ acc.1.reg →
          k ≠ "registry:" ++ u.name → Config.GetLinkName k = u.name →
          lookupDir ((rem.foldl (syncStep projects) acc).1).dirs
            (Config.GetSafeName k) = none ∧
          (∀ p ∈ projects,
            linkPresent ((rem.foldl (syncStep projects) acc).1).links p u.name =
              false)) := by
  intro rem
  induction rem with
  | nil =>
    intro acc _ _ _ u hu
    cases hu
  | cons u0 rem ih =>
    intro acc hnd hnames halias u hu
    have hnd' := List.nodup_cons.mp hnd
    have hu0n : u0.name ∈ allNames := hnames u0 (List.mem_cons_self u0 rem)
    have hsf0 : '/' ∉ u0.name.data := hsf u0.name hu0n
    have hlink0 : Config.GetLinkName ("registry:" ++ u0.name) = u0.name :=
      Config.getLinkName_registry u0.name hsf0
    have halias' := @syncStep_alias projects allNames acc u0 hsf hu0n halias
    rcases List.mem_cons.mp hu with he | he
    · subst he
      rw [List.foldl_cons]
      refine ⟨?_, ?_, ?_, ?_⟩
      · -- the fresh registry record survives the remaining steps
        apply mainFold_regsome_pres rem _ _ _
          (by
            intro t ht
            have htn : t.name ≠ u.name := by
              intro e
              apply hnd'.1
              show u.name ∈ List.map (fun x => x.name) rem
              rw [← e]
              exact List.mem_map_of_mem (fun x => x.name) ht
            constructor
            · intro e
              exact htn (Config.registry_id_inj e).symm
            · rw [hlink0]
              exact fun e => htn e.symm)
        rw [syncStep_state]
        simp only
        exact Skills.lookup_set_self _ _ _
      · -- no other record with this link name remains
        intro k hk hlinkk
        apply mainFold_regnone_pres rem _ k
          (by
            intro t ht e
            have hts : '/' ∉ t.name.data := hsf t.name (hnames t (List.mem_cons_of_mem _ ht))
            have hlt : Config.GetLinkName k = t.name := by
              rw [e]
              exact Config.getLinkName_registry t.name hts
            rw [hlinkk] at hlt
            apply hnd'.1
            show u.name ∈ List.map (fun x => x.name) rem
            rw [hlt]
            exact List.mem_map_of_mem (fun x => x.name) ht)
        rw [syncStep_state]
        simp only
        rw [Skills.lookup_set_other _ _ _ _ hk]
        cases hl : Skills.lookupSkill acc.1.reg k with
        | none => exact rswln_lookup_none_mono hl
        | some v => exact rswln_removes (Skills.lookup_mem hl) hk hlinkk
      · -- the copied directory content survives the remaining steps
        apply mainFold_dirsome_pres hsf rem _ u.name u.content
          (fun t ht => hnames t (List.mem_cons_of_mem _ ht)) halias' hu0n hnd'.1
        rw [syncStep_state]
        simp only
        rw [lookupDir_overwrite, if_pos rfl]
      · -- records that shared the link name lost dir and links
        intro k v hkv hk hlinkk
        have hsafe_ne : Config.GetSafeName k ≠
            Config.GetSafeName ("registry:" ++ u.name) := by
          intro e
          exact hk (halias k v hkv u.name hu0n e)
        constructor
        · apply mainFold_dirnone_pres rem _ _
            (by
              intro t ht e
              have hkt := halias k v hkv t.name
                (hnames t (List.mem_cons_of_mem _ ht)) e
              have hts : '/' ∉ t.name.data :=
                hsf t.name (hnames t (List.mem_cons_of_mem _ ht))
              have hlt : Config.GetLinkName k = t.name := by
                rw [hkt]
                exact Config.getLinkName_registry t.name hts
              rw [hlinkk] at hlt
              apply hnd'.1
              show u.name ∈ List.map (fun x => x.name) rem
              rw [hlt]
              exact List.mem_map_of_mem (fun x => x.name) ht)
          rw [syncStep_state]
          simp only
          rw [lookupDir_overwrite, if_neg hsafe_ne]
          exact rswln_dir_removed hkv hk hlinkk
        · intro p hp
          apply linkPresent_false_mono (fun q hq => mainFold_links_mono rem _ q hq)
          rw [syncStep_state]
          simp only
          exact rswln_link_removed hkv hk hlinkk hp
    · -- a later upstream skill: use the induction hypothesis
      rw [List.foldl_cons]
      have hun : u.name ∈ allNames := hnames u (List.mem_cons_of_mem u0 he)
      have hname_ne : u.name ≠ u0.name := by
        intro e
        apply hnd'.1
        show u0.name ∈ List.map (fun x => x.name) rem
        rw [← e]
        exact List.mem_map_of_mem (fun x => x.name) he
      have ihh := ih (syncStep projects acc u0) hnd'.2
        (fun t ht => hnames t (List.mem_cons_of_mem u0 ht)) halias' u he
      refine ⟨ihh.1, ihh.2.1, ihh.2.2.1, ?_⟩
      intro k v hkv hk hlinkk
      apply ihh.2.2.2 k v _ hk hlinkk
      have hkne0 : k ≠ "registry:" ++ u0.name := by
        intro e
        rw [e, hlink0] at hlinkk
        exact hname_ne hlinkk.symm
      have hlinkne0 : Config.GetLinkName k ≠ u0.name := by
        rw [hlinkk]
        exact hname_ne
      rw [syncStep_state]
      simp only
      exact Skills.mem_setSkill_of_ne
        (rswln_entry_pres hkv (Or.inr hlinkne0)) hkne0

/-- With a nonempty scan, `SyncSkills` is the main fold followed by the
removal fold over the snapshot of the main fold's registry. -/
theorem SyncSkills_eq (upstream : List UpSkill) (projects : List Nat)
    (st : SyncState) (hne : upstream.isEmpty = false) :
    SyncSkills upstream projects st =
      (Skills.GetAllSkills
          ((upstream.foldl (syncStep projects) (st, ⟨0, 0, 0, 0, 0, 0, 0⟩)).1).reg).foldl
        (removeGoneStep (upstream.map (fun u => "registry:" ++ u.name)) projects)
        (upstream.foldl (syncStep projects) (st, ⟨0, 0, 0, 0, 0, 0, 0⟩)) := by
  simp only [SyncSkills, hne, Bool.false_eq_true, if_false]

/-- `SyncSkills` on a state already synced with an unchanged upstream
reports nothing added, updated or removed and leaves the registry, the
links, and (extensionally) the directories as they were. -/
theorem SyncSkills_noop {upstream : List UpSkill} {projects : List Nat}
    {st : SyncState}
    (hsync : ∀ u ∈ upstream,
      (∀ (k : String) (v : Skills.StoredSkill), (k, v) ∈ st.reg →
        k = "registry:" ++ u.name ∨ Config.GetLinkName k ≠ u.name) ∧
      Skills.lookupSkill st.reg ("registry:" ++ u.name) =
        some ⟨u.commitID, "registry", ""⟩ ∧
      lookupDir st.dirs (Config.GetSafeName ("registry:" ++ u.name)) =
        some u.content)
    (hfound : ∀ (k : String) (v : Skills.StoredSkill), (k, v) ∈ st.reg →
      v.type = "registry" → k ∈ upstream.map (fun u => "registry:" ++ u.name)) :
    (SyncSkills upstream projects st).1.reg = st.reg ∧
    (SyncSkills upstream projects st).1.links = st.links ∧
    (∀ d, lookupDir (SyncSkills upstream projects st).1.dirs d =
      lookupDir st.dirs d) ∧
    (SyncSkills upstream projects st).2.added = 0 ∧
    (SyncSkills upstream projects st).2.updated = 0 ∧
    (SyncSkills upstream projects st).2.removed = 0 := by
  cases hup : upstream.isEmpty with
  | true =>
    simp [SyncSkills, hup]
  | false =>
    have hmain := @mainFold_noop projects upstream
      (st, ⟨0, 0, 0, 0, 0, 0, 0⟩) (fun u hu => hsync u hu)
    have hrm := @goneFold_id
      (upstream.map (fun u => "registry:" ++ u.name))
      projects
      (Skills.GetAllSkills
        ((upstream.foldl (syncStep projects) (st, ⟨0, 0, 0, 0, 0, 0, 0⟩)).1).reg)
      (upstream.foldl (syncStep projects) (st, ⟨0, 0, 0, 0, 0, 0, 0⟩))
      (by
        intro sk hsk ht
        have hmem := Skills.mem_getAllSkills.mp hsk
        rw [hmain.1] at hmem
        exact hfound _ _ hmem ht)
    rw [SyncSkills_eq upstream projects st hup, hrm]
    exact hmain

/-- The first sync run establishes the synced configuration and leaves
only found ids among the `registry`-typed records. -/
theorem SyncSkills_establish {upstream : List UpSkill} {projects : List Nat}
    {st : SyncState}
    (hne : upstream.isEmpty = false)
    (hnd : (upstream.map (fun u => u.name)).Nodup)
    (hsf : ∀ u ∈ upstream, '/' ∉ u.name.data)
    (halias : ∀ (k : String) (v : Skills.StoredSkill), (k, v) ∈ st.reg →
      ∀ u ∈ upstream,
        Config.GetSafeName k = Config.GetSafeName ("registry:" ++ u.name) →
        k = "registry:" ++ u.name) :
    (∀ u ∈ upstream,
      Skills.lookupSkill (SyncSkills upstream projects st).1.reg
          ("registry:" ++ u.name) = some ⟨u.commitID, "registry", ""⟩ ∧
      (∀ k : String, k ≠ "registry:" ++ u.name → Config.GetLinkName k = u.name →
        Skills.lookupSkill (SyncSkills upstream projects st).1.reg k = none) ∧
      lookupDir (SyncSkills upstream projects st).1.dirs
          (Config.GetSafeName ("registry:" ++ u.name)) = some u.content ∧
      (∀ (k : String) (v : Skills.StoredSkill), (k, v) ∈ st.reg →
        k ≠ "registry:" ++ u.name → Config.GetLinkName k = u.name →
        lookupDir (SyncSkills upstream projects st).1.dirs
          (Config.GetSafeName k) = none ∧
        ∀ p ∈ projects,
          linkPresent (SyncSkills upstream projects st).1.links p u.name =
            false)) ∧
    (∀ (k : String) (v : Skills.StoredSkill),
      (k, v) ∈ (SyncSkills upstream projects st).1.reg → v.type = "registry" →
      k ∈ upstream.map (fun u => "registry:" ++ u.name)) := by
  have hsf' : ∀ nm ∈ upstream.map (fun u => u.name), '/' ∉ nm.data := by
    intro nm hnm
    simp only [List.mem_map] at hnm
    obtain ⟨t, ht, hte⟩ := hnm
    exact hte ▸ hsf t ht
  have halias' : ∀ (k : String) (v : Skills.StoredSkill),
      (k, v) ∈ (st, (⟨0, 0, 0, 0, 0, 0, 0⟩ : SyncCounts)).1.reg →
      ∀ nm ∈ upstream.map (fun u => u.name),
        Config.GetSafeName k = Config.GetSafeName ("registry:" ++ nm) →
        k = "registry:" ++ nm := by
    intro k v hkv nm hnm
    simp only [List.mem_map] at hnm
    obtain ⟨t, ht, hte⟩ := hnm
    subst hte
    exact halias k v hkv t ht
  have hest := @mainFold_establish projects
    (upstream.map (fun u => u.name)) hsf' upstream
    (st, ⟨0, 0, 0, 0, 0, 0, 0⟩) hnd
    (fun u hu => List.mem_map_of_mem (fun x => x.name) hu) halias'
  have hal1 := @mainFold_alias projects
    (upstream.map (fun u => u.name)) hsf' upstream
    (st, ⟨0, 0, 0, 0, 0, 0, 0⟩)
    (fun u hu => List.mem_map_of_mem (fun x => x.name) hu) halias'
  rw [SyncSkills_eq upstream projects st hne]
  constructor
  · intro u hu
    have hu1 := hest u hu
    have hkeep : ("registry:" ++ u.name) ∈
        upstream.map (fun t => "registry:" ++ t.name) :=
      List.mem_map_of_mem (fun t => "registry:" ++ t.name) hu
    refine ⟨?_, ?_, ?_, ?_⟩
    · rw [goneFold_lookup_pres _ _ _ hkeep]
      exact hu1.1
    · intro k hk hlinkk
      exact goneFold_lookup_none_mono _ _ k (hu1.2.1 k hk hlinkk)
    · rw [goneFold_dirs_pres _ _ _ (by
        intro sk hsk ht hid
        intro he
        have hmem := Skills.mem_getAllSkills.mp hsk
        have := hal1 sk.id _ hmem u.name
          (List.mem_map_of_mem (fun x => x.name) hu) he
        rw [this] at hid
        exact hid (List.mem_map_of_mem (fun t => "registry:" ++ t.name) hu))]
      exact hu1.2.2.1
    · intro k v hkv hk hlinkk
      have hd := hu1.2.2.2 k v hkv hk hlinkk
      refine ⟨goneFold_dirs_none_mono _ _ _ hd.1, ?_⟩
      intro p hp
      apply linkPresent_false_mono (fun q hq => goneFold_links_sub _ _ q hq)
      exact hd.2 p hp
  · apply goneFold_registry_found
    intro k v hmem
    exact Skills.mem_getAllSkills.mpr hmem

end Commands

/-! ## Claim theorems (config and git layers) -/

/-- C1: for input `https://github.com/user/repo/tree/feature%2Fmy-work`
the code returns the branch **undecoded** (`feature%2Fmy-work`), with url
`https://github.com/user/repo.git` and empty path.  `NormalizeURL`
performs no percent-decoding, contradicting the claim (and the
repository's own test `TestNormalizeURL`, which expects
`feature/my-work`). -/
theorem C1_normalizeURL_no_percent_decoding :
    Git.NormalizeURL "https://github.com/user/repo/tree/feature%2Fmy-work" =
      ⟨"https://github.com/user/repo.git", "feature%2Fmy-work", ""⟩ ∧
    ("feature%2Fmy-work" : String) ≠ "feature/my-work" := by
  constructor
  · decide
  · decide

/-- C4 counterexample: the claim's preconditions (source and locator free
of `"__"`, source free of `':'` and `'/'`) are satisfied by
`source = "a_"`, `locator = "b"`, yet the round trip fails:
`GetSafeName "a_:b" = "a___b"` and `ParseSafeName "a___b" = "a:_b"`. -/
theorem C4_counterexample :
    ¬ (∀ source locator : String,
        Config.hasUU source.data = false → Config.hasUU locator.data = false →
        ':' ∉ source.data → '/' ∉ source.data →
        Config.ParseSafeName (Config.GetSafeName (source ++ ":" ++ locator)) =
          source ++ ":" ++ locator) := by
  intro h
  have hx := h "a_" "b" (by decide) (by decide) (by decide) (by decide)
  rw [show ("a_" ++ ":" ++ "b" : String) = "a_:b" by decide] at hx
  exact absurd hx (by decide)

/-- C4 (amended): the round trip `ParseSafeName (GetSafeName id) = id`
holds for `id = source ++ ":" ++ locator` when, in addition to the
claim's conditions (no `"__"` in source or locator, no `':'` or `'/'` in
source), the source does not end in `'_'` and the locator has no `'_'`
immediately before a `'/'` — the two adjacency cases the counterexample
exposes. -/
theorem C4_safeName_roundtrip (source locator : String)
    (hc : ':' ∉ source.data) (_hs : '/' ∉ source.data)
    (hu : Config.hasUU source.data = false) (he : Config.endsU source.data = false)
    (hlu : Config.hasUU locator.data = false) (hls : Config.hasUS locator.data = false) :
    Config.ParseSafeName (Config.GetSafeName (source ++ ":" ++ locator)) =
      source ++ ":" ++ locator := by
  have hd : (source ++ ":" ++ locator).data = source.data ++ ':' :: locator.data := by
    simp [Config.string_data_append]
  apply string_ext
  show Config.ParseSafeNameL (Config.GetSafeNameL (source ++ ":" ++ locator).data) =
    (source ++ ":" ++ locator).data
  rw [hd]
  exact Config.parse_getSafe_roundtripL source.data locator.data hc hu he hlu hls

/-- C4 witness: the amended round trip at the claim's own example,
`github:user/repo/path/to/skill`, whose safe name is
`github__user__repo__path__to__skill`. -/
theorem C4_safeName_roundtrip_witness :
    Config.GetSafeName "github:user/repo/path/to/skill" =
      "github__user__repo__path__to__skill" ∧
    Config.ParseSafeName "github__user__repo__path__to__skill" =
      "github:user/repo/path/to/skill" := by
  constructor
  · decide
  · have h := C4_safeName_roundtrip "github" "user/repo/path/to/skill"
      (by decide) (by decide) (by decide) (by decide) (by decide) (by decide)
    rw [show ("github" ++ ":" ++ "user/repo/path/to/skill" : String) =
      "github:user/repo/path/to/skill" by decide] at h
    rw [show Config.GetSafeName "github:user/repo/path/to/skill" =
      "github__user__repo__path__to__skill" by decide] at h
    exact h

/-- C5: for input
`https://github.com/user/repo/tree/main/skills/tooling?tab=readme#section`
the query string and fragment are stripped and the result is url
`https://github.com/user/repo.git`, branch `main`, path `skills/tooling`. -/
theorem C5_normalizeURL_query_fragment :
    Git.NormalizeURL
        "https://github.com/user/repo/tree/main/skills/tooling?tab=readme#section" =
      ⟨"https://github.com/user/repo.git", "main", "skills/tooling"⟩ := by
  decide

/-- C6: URL normalization is idempotent — for every input string `s`,
renormalizing the normalized `.git` URL yields that URL again, with empty
branch and path; in particular, for an already-normalized plain `.git`
repository URL the whole `{url, branch, path}` result is unchanged. -/
theorem C6_normalizeURL_idempotent (s : String) :
    Git.NormalizeURL ((Git.NormalizeURL s).URL) =
      ⟨(Git.NormalizeURL s).URL, "", ""⟩ := by
  unfold Git.NormalizeURL
  simp only
  rw [Git.NormalizeURLL_idem s.data]

/-- C9: `GetLinkName` keeps the last path segment of the locator and
drops the source prefix: `local:figma-mcp ↦ figma-mcp`,
`github:user/repo/my-skill ↦ my-skill`, `registry:team-skill ↦
team-skill`. -/
theorem C9_getLinkName_examples :
    Config.GetLinkName "local:figma-mcp" = "figma-mcp" ∧
    Config.GetLinkName "github:user/repo/my-skill" = "my-skill" ∧
    Config.GetLinkName "registry:team-skill" = "team-skill" := by
  refine ⟨?_, ?_, ?_⟩
  · decide
  · decide
  · decide

/-- C7: `UpdateSkillVersion` on a present key rewrites the file (`true`)
and changes only the `commitId` of that entry, keeping its type and path
and every other entry; on an absent key the registry state is returned
untouched and the file is not rewritten (`false`). -/
theorem C7_updateSkillVersion (m : Skills.RegMap) (id c : String) :
    (∀ s, Skills.lookupSkill m id = some s →
      (Skills.UpdateSkillVersion m id c).2 = true ∧
      Skills.GetSkill (Skills.UpdateSkillVersion m id c).1 id =
        some ⟨id, c, s.type, s.path⟩) ∧
    (∀ id', id' ≠ id →
      Skills.GetSkill (Skills.UpdateSkillVersion m id c).1 id' =
        Skills.GetSkill m id') ∧
    (Skills.lookupSkill m id = none →
      Skills.UpdateSkillVersion m id c = (m, false)) := by
  refine ⟨?_, ?_, ?_⟩
  · intro s hs
    constructor
    · simp [Skills.UpdateSkillVersion, hs]
    · simp [Skills.UpdateSkillVersion, hs, Skills.GetSkill, Skills.lookup_set_self]
  · intro id' hne
    cases hs : Skills.lookupSkill m id with
    | none => simp [Skills.UpdateSkillVersion, hs]
    | some s =>
      simp [Skills.UpdateSkillVersion, hs, Skills.GetSkill,
        Skills.lookup_set_other m id id' _ hne]
  · intro hs
    simp [Skills.UpdateSkillVersion, hs]

/-- C7 witness: a one-entry registry, updated at its key and at a missing
key. -/
theorem C7_updateSkillVersion_witness :
    (Skills.UpdateSkillVersion
        [("github:user/repo/a-skill", ⟨"abc123", "github", "skills/a-skill"⟩)]
        "github:user/repo/a-skill" "def456").2 = true ∧
    Skills.GetSkill (Skills.UpdateSkillVersion
        [("github:user/repo/a-skill", ⟨"abc123", "github", "skills/a-skill"⟩)]
        "github:user/repo/a-skill" "def456").1 "github:user/repo/a-skill" =
      some ⟨"github:user/repo/a-skill", "def456", "github", "skills/a-skill"⟩ ∧
    Skills.UpdateSkillVersion
        [("github:user/repo/a-skill", ⟨"abc123", "github", "skills/a-skill"⟩)]
        "local:missing" "def456" =
      ([("github:user/repo/a-skill", ⟨"abc123", "github", "skills/a-skill"⟩)], false) := by
  have h1 := (C7_updateSkillVersion
    [("github:user/repo/a-skill", ⟨"abc123", "github", "skills/a-skill"⟩)]
    "github:user/repo/a-skill" "def456").1
    ⟨"abc123", "github", "skills/a-skill"⟩ (by decide)
  have h2 := (C7_updateSkillVersion
    [("github:user/repo/a-skill", ⟨"abc123", "github", "skills/a-skill"⟩)]
    "local:missing" "def456").2.2 (by decide)
  exact ⟨h1.1, h1.2, h2⟩

/-- C8: the registry behaves as a map keyed by identifier — two adds with
distinct identifiers on the empty registry make `GetAllSkills` return
exactly those two entries sorted by identifier ascending, and after
`RemoveSkill id` a `GetSkill id` returns `nil`. -/
theorem C8_registry_crud (id1 id2 t1 t2 c1 c2 p1 p2 : String) (hne : id1 ≠ id2) :
    (id1 < id2 →
      Skills.GetAllSkills
          (Skills.AddSkill (Skills.AddSkill [] id1 t1 c1 p1) id2 t2 c2 p2) =
        [⟨id1, c1, t1, p1⟩, ⟨id2, c2, t2, p2⟩]) ∧
    (id2 < id1 →
      Skills.GetAllSkills
          (Skills.AddSkill (Skills.AddSkill [] id1 t1 c1 p1) id2 t2 c2 p2) =
        [⟨id2, c2, t2, p2⟩, ⟨id1, c1, t1, p1⟩]) ∧
    (∀ (m : Skills.RegMap) (id : String),
      Skills.GetSkill (Skills.RemoveSkill m id) id = none) := by
  have hmap : Skills.AddSkill (Skills.AddSkill [] id1 t1 c1 p1) id2 t2 c2 p2 =
      [(id1, ⟨c1, t1, p1⟩), (id2, ⟨c2, t2, p2⟩)] := by
    simp [Skills.AddSkill, Skills.setSkill, hne]
  refine ⟨?_, ?_, ?_⟩
  · intro hlt
    rw [hmap]
    simp [Skills.GetAllSkills, Skills.sortByID, Skills.insertByID, hlt]
  · intro hlt
    rw [hmap]
    simp [Skills.GetAllSkills, Skills.sortByID, Skills.insertByID, hlt.asymm]
  · intro m id
    simp [Skills.GetSkill, Skills.lookup_remove_self]

/-- C8 witness: the two skills of the repository's own registry test,
added, listed in sorted order, and one of them removed. -/
theorem C8_registry_crud_witness :
    Skills.GetAllSkills (Skills.AddSkill
        (Skills.AddSkill [] "github:user/repo/a-skill" "github" "abc123" "skills/a-skill")
        "local:local-skill" "local" "" "") =
      [⟨"github:user/repo/a-skill", "abc123", "github", "skills/a-skill"⟩,
       ⟨"local:local-skill", "", "local", ""⟩] ∧
    Skills.GetSkill (Skills.RemoveSkill
        [("local:local-skill", ⟨"", "local", ""⟩)] "local:local-skill")
      "local:local-skill" = none := by
  have h := C8_registry_crud "github:user/repo/a-skill" "local:local-skill"
    "github" "local" "abc123" "" "skills/a-skill" "" (by decide)
  exact ⟨h.1 (String.lt_iff_toList_lt.mpr (by decide)), h.2.2 _ _⟩

/-- C10: a path is returned by `scanForSkills` exactly when it is
`root ++ "/" ++ name` for a directory entry `name` among the direct
children of `root` whose name is not dot-prefixed and that has a direct
child named `SKILL.md`; consequently a dot-prefixed directory, a plain
file, or a directory whose `SKILL.md` sits deeper than one level is
never picked up. -/
theorem C10_scanForSkills_characterization (root : String)
    (entries : List Commands.FSNode) (p : String) :
    p ∈ Commands.scanForSkills root entries ↔
      ∃ name children, Commands.FSNode.dir name children ∈ entries ∧
        p = root ++ "/" ++ name ∧
        Commands.startsWithDot name = false ∧
        children.any (fun c => Commands.nodeName c == "SKILL.md") = true := by
  unfold Commands.scanForSkills
  rw [List.mem_filterMap]
  constructor
  · rintro ⟨e, he, hsome⟩
    cases e with
    | file n => cases hsome
    | dir name children =>
      have hsome' : (if Commands.startsWithDot name then none
          else if children.any (fun c => Commands.nodeName c == "SKILL.md") then
            some (root ++ "/" ++ name) else none) = some p := hsome
      by_cases hd : Commands.startsWithDot name
      · rw [if_pos hd] at hsome'
        cases hsome'
      · rw [if_neg hd] at hsome'
        by_cases hs : children.any (fun c => Commands.nodeName c == "SKILL.md")
        · rw [if_pos hs] at hsome'
          injection hsome' with hp
          exact ⟨name, children, he, hp.symm, Bool.eq_false_iff.mpr hd, hs⟩
        · rw [if_neg hs] at hsome'
          cases hsome'
  · rintro ⟨name, children, he, hp, hd, hs⟩
    refine ⟨.dir name children, he, ?_⟩
    show (if Commands.startsWithDot name then none
      else if children.any (fun c => Commands.nodeName c == "SKILL.md") then
        some (root ++ "/" ++ name) else none) = some p
    rw [if_neg (by simp [hd]), if_pos hs, hp]

/-- C2: with an unchanged upstream — pairwise distinct, slash-free skill
directory names and the same commit ids — and a start state none of
whose identifiers aliases the safe name of a `registry:` identifier, a
second `SyncSkills` run reports zero added, zero updated and zero
removed skills and leaves the registry, the project links and
(extensionally) the repository skill directories exactly as the first
run left them. -/
theorem C2_sync_idempotent (upstream : List Commands.UpSkill)
    (projects : List Nat) (st : Commands.SyncState)
    (hnd : (upstream.map (fun u => u.name)).Nodup)
    (hsf : ∀ u ∈ upstream, '/' ∉ u.name.data)
    (halias : ∀ (k : String) (v : Skills.StoredSkill), (k, v) ∈ st.reg →
      ∀ u ∈ upstream,
        Config.GetSafeName k = Config.GetSafeName ("registry:" ++ u.name) →
        k = "registry:" ++ u.name) :
    (Commands.SyncSkills upstream projects
        (Commands.SyncSkills upstream projects st).1).2.added = 0 ∧
    (Commands.SyncSkills upstream projects
        (Commands.SyncSkills upstream projects st).1).2.updated = 0 ∧
    (Commands.SyncSkills upstream projects
        (Commands.SyncSkills upstream projects st).1).2.removed = 0 ∧
    (Commands.SyncSkills upstream projects
        (Commands.SyncSkills upstream projects st).1).1.reg =
      (Commands.SyncSkills upstream projects st).1.reg ∧
    (Commands.SyncSkills upstream projects
        (Commands.SyncSkills upstream projects st).1).1.links =
      (Commands.SyncSkills upstream projects st).1.links ∧
    ∀ d, Commands.lookupDir (Commands.SyncSkills upstream projects
        (Commands.SyncSkills upstream projects st).1).1.dirs d =
      Commands.lookupDir (Commands.SyncSkills upstream projects st).1.dirs d := by
  cases hup : upstream.isEmpty with
  | true =>
    simp [Commands.SyncSkills, hup]
  | false =>
    have hest := @Commands.SyncSkills_establish upstream projects st
      hup hnd hsf halias
    have hnoop := @Commands.SyncSkills_noop upstream
      projects
      ((Commands.SyncSkills upstream projects st).1)
      (fun u hu =>
        ⟨fun k v hkv => by
          by_cases hk : k = "registry:" ++ u.name
          · exact Or.inl hk
          · refine Or.inr (fun hl => ?_)
            exact Skills.lookup_ne_none_of_mem hkv ((hest.1 u hu).2.1 k hk hl),
         (hest.1 u hu).1, (hest.1 u hu).2.2.1⟩)
      hest.2
    exact ⟨hnoop.2.2.2.1, hnoop.2.2.2.2.1, hnoop.2.2.2.2.2, hnoop.1,
      hnoop.2.1, hnoop.2.2.1⟩

/-- C2 witness: one upstream skill `team-skill` with commit `c1`, one
detected project, empty start state; the second run reports 0/0/0 and
preserves registry, links and the `registry__team-skill` directory. -/
theorem C2_sync_idempotent_witness :
    (Commands.SyncSkills [⟨"team-skill", "c1", "T"⟩] [0]
        (Commands.SyncSkills [⟨"team-skill", "c1", "T"⟩] [0]
          ⟨[], [], []⟩).1).2.added = 0 ∧
    (Commands.SyncSkills [⟨"team-skill", "c1", "T"⟩] [0]
        (Commands.SyncSkills [⟨"team-skill", "c1", "T"⟩] [0]
          ⟨[], [], []⟩).1).2.updated = 0 ∧
    (Commands.SyncSkills [⟨"team-skill", "c1", "T"⟩] [0]
        (Commands.SyncSkills [⟨"team-skill", "c1", "T"⟩] [0]
          ⟨[], [], []⟩).1).2.removed = 0 ∧
    (Commands.SyncSkills [⟨"team-skill", "c1", "T"⟩] [0]
        (Commands.SyncSkills [⟨"team-skill", "c1", "T"⟩] [0]
          ⟨[], [], []⟩).1).1.reg =
      (Commands.SyncSkills [⟨"team-skill", "c1", "T"⟩] [0] ⟨[], [], []⟩).1.reg ∧
    (Commands.SyncSkills [⟨"team-skill", "c1", "T"⟩] [0]
        (Commands.SyncSkills [⟨"team-skill", "c1", "T"⟩] [0]
          ⟨[], [], []⟩).1).1.links =
      (Commands.SyncSkills [⟨"team-skill", "c1", "T"⟩] [0] ⟨[], [], []⟩).1.links ∧
    Commands.lookupDir (Commands.SyncSkills [⟨"team-skill", "c1", "T"⟩] [0]
        (Commands.SyncSkills [⟨"team-skill", "c1", "T"⟩] [0]
          ⟨[], [], []⟩).1).1.dirs "registry__team-skill" =
      Commands.lookupDir (Commands.SyncSkills [⟨"team-skill", "c1", "T"⟩] [0]
        ⟨[], [], []⟩).1.dirs "registry__team-skill" := by
  have h := C2_sync_idempotent [⟨"team-skill", "c1", "T"⟩] [0] ⟨[], [], []⟩
    (by decide) (by decide)
    (fun k v hkv => absurd hkv (List.not_mem_nil _))
  exact ⟨h.1, h.2.1, h.2.2.1, h.2.2.2.1, h.2.2.2.2.1,
    h.2.2.2.2.2 "registry__team-skill"⟩

/-- C3: during sync, for every found registry skill name, the
`registry:`-sourced record is kept with the fresh commit id, while any
record of the start state with a different identifier but the same link
name ends up with its registry record gone, its repository skill
directory gone, and its link absent from every detected project
(hypotheses as in the idempotence theorem). -/
theorem C3_sync_dedup_by_link_name (upstream : List Commands.UpSkill)
    (projects : List Nat) (st : Commands.SyncState)
    (hnd : (upstream.map (fun u => u.name)).Nodup)
    (hsf : ∀ u ∈ upstream, '/' ∉ u.name.data)
    (halias : ∀ (k : String) (v : Skills.StoredSkill), (k, v) ∈ st.reg →
      ∀ u ∈ upstream,
        Config.GetSafeName k = Config.GetSafeName ("registry:" ++ u.name) →
        k = "registry:" ++ u.name) :
    ∀ u ∈ upstream,
      Skills.lookupSkill (Commands.SyncSkills upstream projects st).1.reg
          ("registry:" ++ u.name) = some ⟨u.commitID, "registry", ""⟩ ∧
      ∀ (k : String) (v : Skills.StoredSkill), (k, v) ∈ st.reg →
        k ≠ "registry:" ++ u.name → Config.GetLinkName k = u.name →
        Skills.lookupSkill (Commands.SyncSkills upstream projects st).1.reg k =
          none ∧
        Commands.lookupDir (Commands.SyncSkills upstream projects st).1.dirs
          (Config.GetSafeName k) = none ∧
        ∀ p ∈ projects,
          Commands.linkPresent (Commands.SyncSkills upstream projects st).1.links
            p u.name = false := by
  intro u hu
  have hne : upstream.isEmpty = false := by
    cases upstream with
    | nil => cases hu
    | cons a t => rfl
  have hest := @Commands.SyncSkills_establish upstream projects st
    hne hnd hsf halias
  refine ⟨(hest.1 u hu).1, ?_⟩
  intro k v hkv hk hl
  exact ⟨(hest.1 u hu).2.1 k hk hl,
    ((hest.1 u hu).2.2.2 k v hkv hk hl).1,
    ((hest.1 u hu).2.2.2 k v hkv hk hl).2⟩

/-- C3 witness: a `github:`-sourced record sharing the link name
`team-skill` with the found registry skill loses its registry record,
its directory and its project link, while the `registry:` record is
kept with the fresh commit id. -/
theorem C3_sync_dedup_by_link_name_witness :
    Skills.lookupSkill (Commands.SyncSkills [⟨"team-skill", "c1", "T"⟩] [0]
        ⟨[("github:org/repo/skills/team-skill",
            ⟨"old", "github", "skills/team-skill"⟩)],
          [("github__org__repo__skills__team-skill", "OLD")],
          [(0, "team-skill")]⟩).1.reg "registry:team-skill" =
      some ⟨"c1", "registry", ""⟩ ∧
    Skills.lookupSkill (Commands.SyncSkills [⟨"team-skill", "c1", "T"⟩] [0]
        ⟨[("github:org/repo/skills/team-skill",
            ⟨"old", "github", "skills/team-skill"⟩)],
          [("github__org__repo__skills__team-skill", "OLD")],
          [(0, "team-skill")]⟩).1.reg "github:org/repo/skills/team-skill" =
      none ∧
    Commands.lookupDir (Commands.SyncSkills [⟨"team-skill", "c1", "T"⟩] [0]
        ⟨[("github:org/repo/skills/team-skill",
            ⟨"old", "github", "skills/team-skill"⟩)],
          [("github__org__repo__skills__team-skill", "OLD")],
          [(0, "team-skill")]⟩).1.dirs
        (Config.GetSafeName "github:org/repo/skills/team-skill") = none ∧
    Commands.linkPresent (Commands.SyncSkills [⟨"team-skill", "c1", "T"⟩] [0]
        ⟨[("github:org/repo/skills/team-skill",
            ⟨"old", "github", "skills/team-skill"⟩)],
          [("github__org__repo__skills__team-skill", "OLD")],
          [(0, "team-skill")]⟩).1.links 0 "team-skill" = false := by
  have h := C3_sync_dedup_by_link_name [⟨"team-skill", "c1", "T"⟩] [0]
    ⟨[("github:org/repo/skills/team-skill",
        ⟨"old", "github", "skills/team-skill"⟩)],
      [("github__org__repo__skills__team-skill", "OLD")],
      [(0, "team-skill")]⟩
    (by decide) (by decide)
    (by
      intro k v hkv u hu hsafe
      have hk : k = "github:org/repo/skills/team-skill" := by
        simpa using congrArg Prod.fst (List.mem_singleton.mp hkv)
      subst hk
      have hu' : u = ⟨"team-skill", "c1", "T"⟩ := List.mem_singleton.mp hu
      subst hu'
      exact absurd hsafe (by decide))
    ⟨"team-skill", "c1", "T"⟩ (List.mem_singleton.mpr rfl)
  have h2 := h.2 "github:org/repo/skills/team-skill"
    ⟨"old", "github", "skills/team-skill"⟩
    (List.mem_singleton.mpr rfl) (by decide) (by decide)
  exact ⟨h.1, h2.1, h2.2.1, h2.2.2 0 (List.mem_singleton.mpr rfl)⟩

end AgentManagement
